import Mathlib

/-!
Verification development for the monomorphization stage of the roc compiler.

The repository slice at hand contains the optimization test suite of the
mono stage (compiler/mono/tests/test_opt.rs) and one editor model file
(editor/src/editor/mvc/ed_model.rs).  The data model of the lowered IR
(the Expr variants, Layout, Builtin, Symbol, Procs) is embedded below
exactly as the test suite matches on it; the test helpers
(extract_named_calls, binary search bookkeeping) are translated from the
test source.  The lowering engine itself (Expr.new) is not part of the
visible sources, so it is modelled from the specification, as are the
layout resolver and the uniqueness-driven builtin call resolver.

Machine integers are modelled as Int and Nat.  The payload of a float
literal is carried as a rational number: the lowering never computes with
the value, it only transports it, so the exact-value claims are about
transport and a rational payload models that faithfully.
-/

namespace Roc

/-- Symbols are globally unique identifiers (module id plus local id in the
compiler); equality and ordering are total.  We model them as naturals. -/
abbrev Symbol := Nat

/-- The pure list update builtin. -/
def Symbol.LIST_SET : Symbol := 100

/-- The in-place (destructive) list update builtin. -/
def Symbol.LIST_SET_IN_PLACE : Symbol := 101

/-- The unchecked list read builtin. -/
def Symbol.LIST_GET_UNSAFE : Symbol := 102

mutual

/-- Memory layout of a monomorphic value: a scalar or aggregate builtin,
a struct with positional field layouts (field order fixed at resolution
time), or a tagged union listing the field layouts of every arm. -/
inductive Layout where
  | Builtin (b : Builtin)
  | Struct (fields : List Layout)
  | Union (tags : List (List Layout))

/-- Builtin layouts: fixed width scalars and the list aggregate, as matched
by the test suite (Layout::Builtin(Builtin::Int64), Builtin::List(..)). -/
inductive Builtin where
  | Int64
  | Float64
  | Bool
  | Byte
  | Str
  | List (elem : Layout)

end

mutual

/-- Structural equality test on layouts. -/
def Layout.beq : Layout → Layout → Bool
  | .Builtin a, .Builtin b => Builtin.beq a b
  | .Struct a, .Struct b => Layout.beqList a b
  | .Union a, .Union b => Layout.beqListList a b
  | .Builtin _, .Struct _ => false
  | .Builtin _, .Union _ => false
  | .Struct _, .Builtin _ => false
  | .Struct _, .Union _ => false
  | .Union _, .Builtin _ => false
  | .Union _, .Struct _ => false
termination_by structural a => a

/-- Structural equality test on builtin layouts. -/
def Builtin.beq : Builtin → Builtin → Bool
  | .Int64, .Int64 => true
  | .Float64, .Float64 => true
  | .Bool, .Bool => true
  | .Byte, .Byte => true
  | .Str, .Str => true
  | .List a, .List b => Layout.beq a b
  | .Int64, .Float64 | .Int64, .Bool | .Int64, .Byte | .Int64, .Str | .Int64, .List _
  | .Float64, .Int64 | .Float64, .Bool | .Float64, .Byte | .Float64, .Str | .Float64, .List _
  | .Bool, .Int64 | .Bool, .Float64 | .Bool, .Byte | .Bool, .Str | .Bool, .List _
  | .Byte, .Int64 | .Byte, .Float64 | .Byte, .Bool | .Byte, .Str | .Byte, .List _
  | .Str, .Int64 | .Str, .Float64 | .Str, .Bool | .Str, .Byte | .Str, .List _
  | .List _, .Int64 | .List _, .Float64 | .List _, .Bool | .List _, .Byte | .List _, .Str =>
    false
termination_by structural a => a

/-- Structural equality test on layout lists. -/
def Layout.beqList : List Layout → List Layout → Bool
  | [], [] => true
  | x :: xs, y :: ys => Layout.beq x y && Layout.beqList xs ys
  | [], _ :: _ => false
  | _ :: _, [] => false
termination_by structural a => a

/-- Structural equality test on lists of layout lists. -/
def Layout.beqListList : List (List Layout) → List (List Layout) → Bool
  | [], [] => true
  | x :: xs, y :: ys => Layout.beqList x y && Layout.beqListList xs ys
  | [], _ :: _ => false
  | _ :: _, [] => false
termination_by structural a => a

end

/-- The lowered, monomorphic IR expression, with exactly the closed set of
variants the test suite walks: literals, Load, Store, FunctionPointer,
Jump, CallByName, CallByPointer, Cond, Branches, Switch, Tag, Struct,
Access, AccessAtIndex, Label, Array, RuntimeError.  Field shapes follow
the patterns matched in extract_named_calls_help. -/
inductive Expr where
  | Int (n : Int)
  | Float (x : Rat)
  | Str (s : String)
  | Bool (b : Bool)
  | Byte (b : Nat)
  | Load (name : Symbol)
  | FunctionPointer (name : Symbol)
  | Jump (target : Symbol)
  | RuntimeError (msg : String)
  | Store (paths : List (Symbol × Layout × Expr)) (body : Expr)
  | CallByPointer (fn : Expr) (args : List Expr) (layout : Layout)
  | CallByName (name : Symbol) (args : List (Expr × Layout))
  | Cond (cond : Expr) (cond_layout : Layout) (pass : Expr) (fail : Expr) (ret_layout : Layout)
  | Branches (cond : Expr) (branches : List (Expr × Expr × Expr)) (default : Expr)
      (ret_layout : Layout)
  | Switch (cond : Expr) (cond_layout : Layout) (branches : List (Nat × Expr))
      (default_branch : Expr) (ret_layout : Layout)
  | Tag (tag_layout : Layout) (tag_name : String) (tag_id : Nat) (union_size : Nat)
      (arguments : List (Expr × Layout))
  | Struct (fields : List (Expr × Layout))
  | Access (label : String) (field_layout : Layout) (struct_layout : Layout) (record : Expr)
  | AccessAtIndex (index : Nat) (field_layouts : List Layout) (expr : Expr) (is_unwrapped : Bool)
  | Label (label : Symbol) (body : Expr)
  | Array (elem_layout : Layout) (elems : List Expr)

mutual

/-- The CallByName callee symbols occurring in a lowered tree, in the same
order in which extract_named_calls_help visits them.  Leaf variants (Int,
Float, Str, Bool, Byte, Load, FunctionPointer, Jump, RuntimeError)
contribute nothing; in particular the target of a Jump is not a named
call. -/
def callees : Expr → List Symbol
  | .Int _ => []
  | .Float _ => []
  | .Str _ => []
  | .Bool _ => []
  | .Byte _ => []
  | .Load _ => []
  | .FunctionPointer _ => []
  | .Jump _ => []
  | .RuntimeError _ => []
  | .Store paths body => calleesStore paths ++ callees body
  | .CallByPointer fn args _ => callees fn ++ calleesList args
  | .CallByName name args => name :: calleesArgs args
  | .Cond cond _ pass fail _ => callees cond ++ callees pass ++ callees fail
  | .Branches cond branches default _ =>
    callees cond ++ callees default ++ calleesTriples branches
  | .Switch cond _ branches default _ =>
    callees cond ++ callees default ++ calleesSwitch branches
  | .Tag _ _ _ _ arguments => calleesArgs arguments
  | .Struct fields => calleesArgs fields
  | .Access _ _ _ record => callees record
  | .AccessAtIndex _ _ sub _ => callees sub
  | .Label _ body => callees body
  | .Array _ elems => calleesList elems
termination_by structural e => e

/-- Callee symbols of the value expressions of Store paths, in order. -/
def calleesStore : List (Symbol × Layout × Expr) → List Symbol
  | [] => []
  | (_, _, e) :: rest => callees e ++ calleesStore rest
termination_by structural l => l

/-- Callee symbols of a plain expression list, in order. -/
def calleesList : List Expr → List Symbol
  | [] => []
  | e :: rest => callees e ++ calleesList rest
termination_by structural l => l

/-- Callee symbols of a layout annotated argument list, in order. -/
def calleesArgs : List (Expr × Layout) → List Symbol
  | [] => []
  | (e, _) :: rest => callees e ++ calleesArgs rest
termination_by structural l => l

/-- Callee symbols of Branches arms, visiting each triple left to right. -/
def calleesTriples : List (Expr × Expr × Expr) → List Symbol
  | [] => []
  | (a, b, c) :: rest => callees a ++ callees b ++ callees c ++ calleesTriples rest
termination_by structural l => l

/-- Callee symbols of Switch arms, visiting each branch body. -/
def calleesSwitch : List (Nat × Expr) → List Symbol
  | [] => []
  | (_, e) :: rest => callees e ++ calleesSwitch rest
termination_by structural l => l

end

/-- Binary search over the index interval [left, right) of a sorted list,
the classic halving loop behind the slice binary_search the test helper
calls: compare the middle element, narrow to the half that can contain the
target, answer some index on an exact hit and none when the interval is
exhausted. -/
def binary_search_go (xs : List Symbol) (t : Symbol) (left right : Nat) : Option Nat :=
  if h : left < right then
    let mid := (left + right) / 2
    let v := xs.getD mid 0
    if v < t then binary_search_go xs t (mid + 1) right
    else if t < v then binary_search_go xs t left mid
    else some mid
  else none
termination_by right - left
decreasing_by
  all_goals omega

/-- Binary search over a whole sorted list: some index of a matching
element, or none when the target does not occur. -/
def binary_search (xs : List Symbol) (t : Symbol) : Option Nat :=
  binary_search_go xs t 0 xs.length

mutual

/-- Translation of extract_named_calls_help from the test source: walk the
lowered tree; at each CallByName, binary search the (sorted) list of still
expected calls, removing the entry on a hit and recording the symbol as
unexpected on a miss; every other variant only recurses into its
subexpressions, leaf variants do nothing.  The mutable (calls,
unexpected_calls) pair of the source is threaded as explicit state. -/
def extract_named_calls_help :
    Expr → List Symbol × List Symbol → List Symbol × List Symbol
  | .Int _, st => st
  | .Float _, st => st
  | .Str _, st => st
  | .Bool _, st => st
  | .Byte _, st => st
  | .Load _, st => st
  | .FunctionPointer _, st => st
  | .Jump _, st => st
  | .RuntimeError _, st => st
  | .Store paths body, st =>
    extract_named_calls_help body (extract_store paths st)
  | .CallByPointer fn args _, st =>
    extract_list args (extract_named_calls_help fn st)
  | .CallByName name args, st =>
    let st1 :=
      match binary_search st.1 name with
      | some index => (st.1.eraseIdx index, st.2)
      | none => (st.1, st.2 ++ [name])
    extract_args args st1
  | .Cond cond _ pass fail _, st =>
    extract_named_calls_help fail
      (extract_named_calls_help pass (extract_named_calls_help cond st))
  | .Branches cond branches default _, st =>
    extract_triples branches
      (extract_named_calls_help default (extract_named_calls_help cond st))
  | .Switch cond _ branches default _, st =>
    extract_switch branches
      (extract_named_calls_help default (extract_named_calls_help cond st))
  | .Tag _ _ _ _ arguments, st => extract_args arguments st
  | .Struct fields, st => extract_args fields st
  | .Access _ _ _ record, st => extract_named_calls_help record st
  | .AccessAtIndex _ _ sub _, st => extract_named_calls_help sub st
  | .Label _ body, st => extract_named_calls_help body st
  | .Array _ elems, st => extract_list elems st
termination_by structural e => e

/-- State threading of extract_named_calls_help over Store paths. -/
def extract_store :
    List (Symbol × Layout × Expr) → List Symbol × List Symbol → List Symbol × List Symbol
  | [], st => st
  | (_, _, e) :: rest, st => extract_store rest (extract_named_calls_help e st)
termination_by structural l => l

/-- State threading of extract_named_calls_help over an expression list. -/
def extract_list :
    List Expr → List Symbol × List Symbol → List Symbol × List Symbol
  | [], st => st
  | e :: rest, st => extract_list rest (extract_named_calls_help e st)
termination_by structural l => l

/-- State threading of extract_named_calls_help over argument pairs. -/
def extract_args :
    List (Expr × Layout) → List Symbol × List Symbol → List Symbol × List Symbol
  | [], st => st
  | (e, _) :: rest, st => extract_args rest (extract_named_calls_help e st)
termination_by structural l => l

/-- State threading of extract_named_calls_help over Branches triples. -/
def extract_triples :
    List (Expr × Expr × Expr) → List Symbol × List Symbol → List Symbol × List Symbol
  | [], st => st
  | (a, b, c) :: rest, st =>
    extract_triples rest
      (extract_named_calls_help c
        (extract_named_calls_help b (extract_named_calls_help a st)))
termination_by structural l => l

/-- State threading of extract_named_calls_help over Switch branches. -/
def extract_switch :
    List (Nat × Expr) → List Symbol × List Symbol → List Symbol × List Symbol
  | [], st => st
  | (_, e) :: rest, st => extract_switch rest (extract_named_calls_help e st)
termination_by structural l => l

end

/-- Translation of extract_named_calls from the test source: sort the
expected calls (the source sorts them so binary search applies), run the
tree walk and return the final state: the calls never found (reported as
missing by the test harness) paired with the unexpected calls. -/
def extract_named_calls (expr : Expr) (calls : List Symbol) :
    List Symbol × List Symbol :=
  extract_named_calls_help expr (calls.insertionSort (· ≤ ·), [])

/-- One bookkeeping step of the tree walk, extracted for reasoning: check a
single callee symbol off the expected list or record it as unexpected. -/
def check_off (st : List Symbol × List Symbol) (s : Symbol) : List Symbol × List Symbol :=
  match binary_search st.1 s with
  | some index => (st.1.eraseIdx index, st.2)
  | none => (st.1, st.2 ++ [s])

/-- Modelled from the spec: solved types as handed over by the type solver
(the mono crate consuming them is not among the visible sources).  The
type solution store is pre-applied, so a type is either fully concrete or
still contains an unresolved variable, which the layout resolver treats as
an internal error. -/
inductive Ty where
  | int
  | float
  | bool
  | byte
  | str
  | list (elem : Ty)
  | record (fields : List (String × Ty))
  | tagUnion (tags : List (String × List Ty))
  | var (n : Nat)

/-- Character list comparison underlying the field name order: strict
comparison on the code points, then recurse on equal heads; the empty
list is least. -/
def strLeList : List Char → List Char → Bool
  | [], _ => true
  | _ :: _, [] => false
  | a :: as, b :: bs =>
    if a.toNat < b.toNat then true
    else if b.toNat < a.toNat then false
    else strLeList as bs

/-- Total order on strings (code point lexicographic), the field name
order of the layout resolver. -/
def strLe (a b : String) : Bool :=
  strLeList a.data b.data

/-- Keyed stable sort used by the layout resolver and the record
lowering: order entries by their string key, so that structurally
identical records and unions get identical field and arm ordering
regardless of the order the type listed them in. -/
def sortByKey {β : Type} (l : List (String × β)) : List (String × β) :=
  l.insertionSort (fun a b => strLe a.1 b.1 = true)

mutual

/-- Modelled from the spec: the layout resolver of the mono crate (not
among the visible sources).  Primitive types map to fixed scalar layouts,
list types to the list builtin over the element layout, record types to a
struct whose fields are ordered by sorted field name, tag union types to a
union whose arms are ordered by sorted tag name.  A type that still
contains an unresolved variable has no layout: none models the internal
compile error the resolver surfaces. -/
def layout_of : Ty → Option Layout
  | .int => some (.Builtin .Int64)
  | .float => some (.Builtin .Float64)
  | .bool => some (.Builtin .Bool)
  | .byte => some (.Builtin .Byte)
  | .str => some (.Builtin .Str)
  | .list t =>
    match layout_of t with
    | some l => some (.Builtin (.List l))
    | none => none
  | .record fields =>
    match layoutFields fields with
    | some fl => some (.Struct ((sortByKey fl).map Prod.snd))
    | none => none
  | .tagUnion tags =>
    match layoutTags tags with
    | some tl => some (.Union ((sortByKey tl).map Prod.snd))
    | none => none
  | .var _ => none
termination_by structural t => t

/-- Layout resolution of record fields, keeping the field names so the
resolver can sort by them afterwards. -/
def layoutFields : List (String × Ty) → Option (List (String × Layout))
  | [] => some []
  | (name, t) :: rest =>
    match layout_of t, layoutFields rest with
    | some l, some ls => some ((name, l) :: ls)
    | _, _ => none
termination_by structural l => l

/-- Layout resolution of one tag arm payload list. -/
def layoutArgTys : List Ty → Option (List Layout)
  | [] => some []
  | t :: rest =>
    match layout_of t, layoutArgTys rest with
    | some l, some ls => some (l :: ls)
    | _, _ => none
termination_by structural l => l

/-- Layout resolution of tag union arms, keeping tag names for sorting. -/
def layoutTags : List (String × List Ty) → Option (List (String × List Layout))
  | [] => some []
  | (name, ts) :: rest =>
    match layoutArgTys ts, layoutTags rest with
    | some l, some ls => some ((name, l) :: ls)
    | _, _ => none
termination_by structural l => l

end

/-- Modelled from the spec: the canonical, scope resolved expression tree
the lowering engine consumes (produced by the out of scope parser and
canonicalizer; not among the visible sources).  Every binding carries a
globally unique Symbol, every node that needs one carries its solved type.
A when node is a multi way conditional: each branch carries the dense
discriminant value of its pattern and a body; runtimeError is a deferred
upstream error already detected by canonicalization. -/
inductive Can where
  | int (n : Int)
  | float (x : Rat)
  | str (s : String)
  | bool (b : Bool)
  | byte (b : Nat)
  | var (name : Symbol) (ty : Ty)
  | list (elemTy : Ty) (elems : List Can)
  | call (fn : Symbol) (args : List (Can × Ty))
  | letb (name : Symbol) (ty : Ty) (rhs : Can) (body : Can)
  | record (fields : List (String × Ty × Can))
  | ifte (cond : Can) (pass : Can) (fail : Can) (retTy : Ty)
  | when (scrut : Can) (scrutTy : Ty) (retTy : Ty)
      (branches : List (Nat × Can)) (default : Can)
  | runtimeError (msg : String)

mutual

/-- Occurrences of a symbol as a variable in a canonical tree.  Symbols
are globally unique after canonicalization, so no shadowing arises. -/
def countUses (x : Symbol) : Can → Nat
  | .int _ => 0
  | .float _ => 0
  | .str _ => 0
  | .bool _ => 0
  | .byte _ => 0
  | .var y _ => if y == x then 1 else 0
  | .list _ elems => countUsesList x elems
  | .call _ args => countUsesArgs x args
  | .letb _ _ rhs body => countUses x rhs + countUses x body
  | .record fields => countUsesFields x fields
  | .ifte c p f _ => countUses x c + countUses x p + countUses x f
  | .when s _ _ brs d => countUses x s + countUses x d + countUsesBranches x brs
  | .runtimeError _ => 0
termination_by structural c => c

/-- Occurrences of a symbol in a canonical expression list. -/
def countUsesList (x : Symbol) : List Can → Nat
  | [] => 0
  | c :: rest => countUses x c + countUsesList x rest
termination_by structural l => l

/-- Occurrences of a symbol in typed call arguments. -/
def countUsesArgs (x : Symbol) : List (Can × Ty) → Nat
  | [] => 0
  | (c, _) :: rest => countUses x c + countUsesArgs x rest
termination_by structural l => l

/-- Occurrences of a symbol in record fields. -/
def countUsesFields (x : Symbol) : List (String × Ty × Can) → Nat
  | [] => 0
  | (_, _, c) :: rest => countUses x c + countUsesFields x rest
termination_by structural l => l

/-- Occurrences of a symbol in when branches. -/
def countUsesBranches (x : Symbol) : List (Nat × Can) → Nat
  | [] => 0
  | (_, b) :: rest => countUses x b + countUsesBranches x rest
termination_by structural l => l

end

/-- Modelled from the spec: the per binding uniqueness fact consumed by
the builtin call resolver (the uniqueness analysis of the mono crate is
not among the visible sources).  The mutated argument of a builtin call is
not shared exactly when it is a list value constructed right at the call
site, or a binding known to be unique.  Anything else flows from an
ambiguous source and is conservatively shared. -/
def arg_is_unique (uniq : List Symbol) : Can → Bool
  | .list _ _ => true
  | .var x _ => uniq.contains x
  | _ => false

/-- Modelled from the spec: a let binding produces a unique value exactly
when its right hand side constructs a fresh list (so nothing else can
alias it) and the bound name is used exactly once in the body, so the
binding is not read again after that single use site. -/
def binds_unique_list (x : Symbol) (rhs : Can) (body : Can) : Bool :=
  (match rhs with
    | .list _ _ => true
    | _ => false) && countUses x body == 1

/-- Modelled from the spec: scrutinee types allowing a dense integer or
tag discriminant, enabling jump table style dispatch: fixed width integer
likes and tag unions.  Everything else forces sequential guarded
evaluation. -/
def denseDiscriminant : Ty → Bool
  | .int => true
  | .byte => true
  | .bool => true
  | .tagUnion _ => true
  | .float => false
  | .str => false
  | .list _ => false
  | .record _ => false
  | .var _ => false

/-- A specialization key: the called symbol together with the ordered
concrete argument layouts of the call site. -/
abbrev ProcKey := Symbol × List Layout

/-- A specialized procedure: parameters with layouts, lowered body and
return layout. -/
structure Proc where
  args : List (Symbol × Layout)
  body : Expr
  ret : Layout

/-- Modelled from the spec: the procedure table populated during
lowering, a registry from specialization key to compiled procedure.
Entries are only ever appended. -/
abbrev Procs := List (ProcKey × Proc)

/-- Equality of specialization keys: same symbol, same argument layouts. -/
def keyBeq (a b : ProcKey) : Bool :=
  a.1 == b.1 && Layout.beqList a.2 b.2

/-- Membership of a specialization key in a key list. -/
def keyMem (ks : List ProcKey) (k : ProcKey) : Bool :=
  ks.any (fun q => keyBeq q k)

/-- Membership of a specialization key among the procedure table keys. -/
def procsContains (ps : Procs) (k : ProcKey) : Bool :=
  ps.any (fun p => keyBeq p.1 k)

/-- A generic top level definition available for specialization. -/
structure Def where
  params : List Symbol
  body : Can
  retTy : Ty

/-- The table of generic top level definitions, by symbol. -/
abbrev Defs := List (Symbol × Def)

/-- Look a generic definition up by its symbol. -/
def lookupDef (defs : Defs) (f : Symbol) : Option Def :=
  match defs.find? (fun d => d.1 == f) with
  | some d => some d.2
  | none => none

mutual

/-- Modelled from the spec: the expression lowering engine Expr::new of
the mono crate (only its tests are among the visible sources).  It
recursively lowers a canonical node to a monomorphic Expr, resolving every
layout through layout_of, threading the procedure table through the walk
and appending newly discovered specializations to it.  The extra context
arguments model what the engine tracks during the descent: the generic
definition table, the procedure currently being lowered with a tail
position flag (a tail call to the current procedure becomes a Jump), the
bindings known to be unique (consumed by the builtin resolver to choose
the in place list update), and the specialization keys currently in
progress (the pending markers that break specialization cycles).  The
fuel argument makes the deep recursion a structural one; none means the
pass aborted (an unresolved type) or the fuel ran out. -/
def Expr.new : Nat → Defs → Option Symbol → Bool → List Symbol → List ProcKey →
    Can → Procs → Option (Expr × Procs)
  | 0, _, _, _, _, _, _, _ => none
  | fuel+1, defs, current, tail, uniq, inprog, can, procs =>
    match can with
    | .int n => some (.Int n, procs)
    | .float x => some (.Float x, procs)
    | .str s => some (.Str s, procs)
    | .bool b => some (.Bool b, procs)
    | .byte b => some (.Byte b, procs)
    | .runtimeError msg => some (.RuntimeError msg, procs)
    | .var x _ => some (.Load x, procs)
    | .list elemTy elems =>
      match layout_of elemTy with
      | none => none
      | some el =>
        match lowerElems fuel defs current uniq inprog elems procs with
        | none => none
        | some (es, procs1) => some (.Array el es, procs1)
    | .letb x ty rhs body =>
      match layout_of ty with
      | none => none
      | some l =>
        match Expr.new fuel defs current false uniq inprog rhs procs with
        | none => none
        | some (rhs1, procs1) =>
          let uniq1 := if binds_unique_list x rhs body then x :: uniq else uniq
          match Expr.new fuel defs current tail uniq1 inprog body procs1 with
          | none => none
          | some (body1, procs2) => some (.Store [(x, l, rhs1)] body1, procs2)
    | .record fields =>
      match lowerFields fuel defs current uniq inprog (sortByKey fields) procs with
      | none => none
      | some (fs, procs1) => some (.Struct fs, procs1)
    | .ifte c p f retTy =>
      match layout_of retTy with
      | none => none
      | some rl =>
        match Expr.new fuel defs current false uniq inprog c procs with
        | none => none
        | some (c1, procs1) =>
          match Expr.new fuel defs current tail uniq inprog p procs1 with
          | none => none
          | some (p1, procs2) =>
            match Expr.new fuel defs current tail uniq inprog f procs2 with
            | none => none
            | some (f1, procs3) =>
              some (.Cond c1 (.Builtin .Bool) p1 f1 rl, procs3)
    | .when scrut scrutTy retTy branches default =>
      match layout_of scrutTy, layout_of retTy with
      | some sl, some rl =>
        match Expr.new fuel defs current false uniq inprog scrut procs with
        | none => none
        | some (s1, procs1) =>
          match Expr.new fuel defs current tail uniq inprog default procs1 with
          | none => none
          | some (d1, procs2) =>
            if denseDiscriminant scrutTy then
              match lowerSwitch fuel defs current tail uniq inprog branches procs2 with
              | none => none
              | some (bs, procs3) => some (.Switch s1 sl bs d1 rl, procs3)
            else
              match lowerTriples fuel defs current tail uniq inprog branches procs2 with
              | none => none
              | some (bs, procs3) => some (.Branches s1 bs d1 rl, procs3)
      | some _, none => none
      | none, _ => none
    | .call f args =>
      if f == Symbol.LIST_SET then
        let callee :=
          if (match args with
              | (a, _) :: _ => arg_is_unique uniq a
              | [] => false) then Symbol.LIST_SET_IN_PLACE
          else Symbol.LIST_SET
        match lowerCallArgs fuel defs current uniq inprog args procs with
        | none => none
        | some (args1, procs1) => some (.CallByName callee args1, procs1)
      else
        match lookupDef defs f with
        | none =>
          match lowerCallArgs fuel defs current uniq inprog args procs with
          | none => none
          | some (args1, procs1) => some (.CallByName f args1, procs1)
        | some d =>
          match lowerCallArgs fuel defs current uniq inprog args procs with
          | none => none
          | some (args1, procs1) =>
            let key : ProcKey := (f, args1.map Prod.snd)
            let result : Expr :=
              if tail && current == some f then .Jump f else .CallByName f args1
            if procsContains procs1 key || keyMem inprog key then
              some (result, procs1)
            else
              match layout_of d.retTy with
              | none => none
              | some retL =>
                match Expr.new fuel defs (some f) true [] (key :: inprog) d.body procs1 with
                | none => none
                | some (body1, procs2) =>
                  some (result,
                    procs2 ++ [(key, ⟨d.params.zip (args1.map Prod.snd), body1, retL⟩)])
termination_by structural fuel => fuel

/-- Lowering of the elements of a list literal, threading the table. -/
def lowerElems : Nat → Defs → Option Symbol → List Symbol → List ProcKey →
    List Can → Procs → Option (List Expr × Procs)
  | 0, _, _, _, _, _, _ => none
  | _+1, _, _, _, _, [], procs => some ([], procs)
  | fuel+1, defs, current, uniq, inprog, c :: rest, procs =>
    match Expr.new fuel defs current false uniq inprog c procs with
    | none => none
    | some (e, procs1) =>
      match lowerElems fuel defs current uniq inprog rest procs1 with
      | none => none
      | some (es, procs2) => some (e :: es, procs2)
termination_by structural fuel => fuel

/-- Lowering of record fields (already sorted by name), attaching each
field its resolved layout. -/
def lowerFields : Nat → Defs → Option Symbol → List Symbol → List ProcKey →
    List (String × Ty × Can) → Procs → Option (List (Expr × Layout) × Procs)
  | 0, _, _, _, _, _, _ => none
  | _+1, _, _, _, _, [], procs => some ([], procs)
  | fuel+1, defs, current, uniq, inprog, (_, ty, c) :: rest, procs =>
    match layout_of ty with
    | none => none
    | some l =>
      match Expr.new fuel defs current false uniq inprog c procs with
      | none => none
      | some (e, procs1) =>
        match lowerFields fuel defs current uniq inprog rest procs1 with
        | none => none
        | some (fs, procs2) => some ((e, l) :: fs, procs2)
termination_by structural fuel => fuel

/-- Lowering of call arguments, attaching each its resolved layout. -/
def lowerCallArgs : Nat → Defs → Option Symbol → List Symbol → List ProcKey →
    List (Can × Ty) → Procs → Option (List (Expr × Layout) × Procs)
  | 0, _, _, _, _, _, _ => none
  | _+1, _, _, _, _, [], procs => some ([], procs)
  | fuel+1, defs, current, uniq, inprog, (c, ty) :: rest, procs =>
    match layout_of ty with
    | none => none
    | some l =>
      match Expr.new fuel defs current false uniq inprog c procs with
      | none => none
      | some (e, procs1) =>
        match lowerCallArgs fuel defs current uniq inprog rest procs1 with
        | none => none
        | some (as1, procs2) => some ((e, l) :: as1, procs2)
termination_by structural fuel => fuel

/-- Lowering of when branches for dense dispatch: each arm keeps its
discriminant value next to its lowered body. -/
def lowerSwitch : Nat → Defs → Option Symbol → Bool → List Symbol → List ProcKey →
    List (Nat × Can) → Procs → Option (List (Nat × Expr) × Procs)
  | 0, _, _, _, _, _, _, _ => none
  | _+1, _, _, _, _, _, [], procs => some ([], procs)
  | fuel+1, defs, current, tail, uniq, inprog, (tag, body) :: rest, procs =>
    match Expr.new fuel defs current tail uniq inprog body procs with
    | none => none
    | some (b, procs1) =>
      match lowerSwitch fuel defs current tail uniq inprog rest procs1 with
      | none => none
      | some (bs, procs2) => some ((tag, b) :: bs, procs2)
termination_by structural fuel => fuel

/-- Lowering of when branches for sequential guarded evaluation: each arm
becomes a triple of discriminant test value, test condition placeholder
and lowered body, matching the three expressions a Branches arm holds. -/
def lowerTriples : Nat → Defs → Option Symbol → Bool → List Symbol → List ProcKey →
    List (Nat × Can) → Procs → Option (List (Expr × Expr × Expr) × Procs)
  | 0, _, _, _, _, _, _, _ => none
  | _+1, _, _, _, _, _, [], procs => some ([], procs)
  | fuel+1, defs, current, tail, uniq, inprog, (tag, body) :: rest, procs =>
    match Expr.new fuel defs current tail uniq inprog body procs with
    | none => none
    | some (b, procs1) =>
      match lowerTriples fuel defs current tail uniq inprog rest procs1 with
      | none => none
      | some (bs, procs2) =>
        some ((Expr.Int (Int.ofNat tag), Expr.Bool true, b) :: bs, procs2)
termination_by structural fuel => fuel

end

mutual

/-- Deferred upstream error nodes occurring in a canonical tree. -/
def countErrorNodes : Can → Nat
  | .int _ => 0
  | .float _ => 0
  | .str _ => 0
  | .bool _ => 0
  | .byte _ => 0
  | .var _ _ => 0
  | .list _ elems => countErrorNodesList elems
  | .call _ args => countErrorNodesArgs args
  | .letb _ _ rhs body => countErrorNodes rhs + countErrorNodes body
  | .record fields => countErrorNodesFields fields
  | .ifte c p f _ => countErrorNodes c + countErrorNodes p + countErrorNodes f
  | .when s _ _ brs d => countErrorNodes s + countErrorNodes d + countErrorNodesBranches brs
  | .runtimeError _ => 1
termination_by structural c => c

/-- Error nodes in a canonical expression list. -/
def countErrorNodesList : List Can → Nat
  | [] => 0
  | c :: rest => countErrorNodes c + countErrorNodesList rest
termination_by structural l => l

/-- Error nodes in typed call arguments. -/
def countErrorNodesArgs : List (Can × Ty) → Nat
  | [] => 0
  | (c, _) :: rest => countErrorNodes c + countErrorNodesArgs rest
termination_by structural l => l

/-- Error nodes in record fields. -/
def countErrorNodesFields : List (String × Ty × Can) → Nat
  | [] => 0
  | (_, _, c) :: rest => countErrorNodes c + countErrorNodesFields rest
termination_by structural l => l

/-- Error nodes in when branches. -/
def countErrorNodesBranches : List (Nat × Can) → Nat
  | [] => 0
  | (_, b) :: rest => countErrorNodes b + countErrorNodesBranches rest
termination_by structural l => l

end

mutual

/-- RuntimeError nodes occurring in a lowered tree. -/
def countRuntimeErrors : Expr → Nat
  | .Int _ => 0
  | .Float _ => 0
  | .Str _ => 0
  | .Bool _ => 0
  | .Byte _ => 0
  | .Load _ => 0
  | .FunctionPointer _ => 0
  | .Jump _ => 0
  | .RuntimeError _ => 1
  | .Store paths body => countRuntimeErrorsStore paths + countRuntimeErrors body
  | .CallByPointer fn args _ => countRuntimeErrors fn + countRuntimeErrorsList args
  | .CallByName _ args => countRuntimeErrorsArgs args
  | .Cond cond _ pass fail _ =>
    countRuntimeErrors cond + countRuntimeErrors pass + countRuntimeErrors fail
  | .Branches cond branches default _ =>
    countRuntimeErrors cond + countRuntimeErrors default + countRuntimeErrorsTriples branches
  | .Switch cond _ branches default _ =>
    countRuntimeErrors cond + countRuntimeErrors default + countRuntimeErrorsSwitch branches
  | .Tag _ _ _ _ arguments => countRuntimeErrorsArgs arguments
  | .Struct fields => countRuntimeErrorsArgs fields
  | .Access _ _ _ record => countRuntimeErrors record
  | .AccessAtIndex _ _ sub _ => countRuntimeErrors sub
  | .Label _ body => countRuntimeErrors body
  | .Array _ elems => countRuntimeErrorsList elems
termination_by structural e => e

/-- RuntimeError nodes in Store paths. -/
def countRuntimeErrorsStore : List (Symbol × Layout × Expr) → Nat
  | [] => 0
  | (_, _, e) :: rest => countRuntimeErrors e + countRuntimeErrorsStore rest
termination_by structural l => l

/-- RuntimeError nodes in an expression list. -/
def countRuntimeErrorsList : List Expr → Nat
  | [] => 0
  | e :: rest => countRuntimeErrors e + countRuntimeErrorsList rest
termination_by structural l => l

/-- RuntimeError nodes in layout annotated argument lists. -/
def countRuntimeErrorsArgs : List (Expr × Layout) → Nat
  | [] => 0
  | (e, _) :: rest => countRuntimeErrors e + countRuntimeErrorsArgs rest
termination_by structural l => l

/-- RuntimeError nodes in Branches arms. -/
def countRuntimeErrorsTriples : List (Expr × Expr × Expr) → Nat
  | [] => 0
  | (a, b, c) :: rest =>
    countRuntimeErrors a + countRuntimeErrors b + countRuntimeErrors c +
      countRuntimeErrorsTriples rest
termination_by structural l => l

/-- RuntimeError nodes in Switch arms. -/
def countRuntimeErrorsSwitch : List (Nat × Expr) → Nat
  | [] => 0
  | (_, e) :: rest => countRuntimeErrors e + countRuntimeErrorsSwitch rest
termination_by structural l => l

end

/-- The solved type of a list of 64 bit integers, as in the two list
optimization tests. -/
def tyIntList : Ty := Ty.list Ty.int

/-- The layout of a list of 64 bit integers. -/
def intListLayout : Layout := Layout.Builtin (Builtin.List (Layout.Builtin Builtin.Int64))

/-- The canonical tree of the set_unique_int_list test, generalized over
the literal elements, the update index and value and the read index:
List.getUnsafe (List.set [ es ] i v) j, with the list constructed right at
the update site. -/
def uniqueChainProgram (es : List Int) (i v j : Int) : Can :=
  Can.call Symbol.LIST_GET_UNSAFE
    [(Can.call Symbol.LIST_SET
        [(Can.list Ty.int (es.map Can.int), tyIntList),
         (Can.int i, Ty.int), (Can.int v, Ty.int)], tyIntList),
     (Can.int j, Ty.int)]

/-- The lowered tree the set_unique_int_list test expects: the read call
wrapping the in place update call applied directly to the array literal. -/
def uniqueChainExpected (es : List Int) (i v j : Int) : Expr :=
  Expr.CallByName Symbol.LIST_GET_UNSAFE
    [(Expr.CallByName Symbol.LIST_SET_IN_PLACE
        [(Expr.Array (Layout.Builtin Builtin.Int64) (es.map Expr.Int), intListLayout),
         (Expr.Int i, Layout.Builtin Builtin.Int64),
         (Expr.Int v, Layout.Builtin Builtin.Int64)],
      intListLayout),
     (Expr.Int j, Layout.Builtin Builtin.Int64)]

/-- The canonical tree of the set_shared_int_list test, generalized: a
list literal bound to shared, updated functionally into x, and shared read
again afterwards through the record field y. -/
def sharedListProgram (shared x : Symbol) (es : List Int) (i v j : Int) : Can :=
  Can.letb shared tyIntList (Can.list Ty.int (es.map Can.int))
    (Can.letb x tyIntList
      (Can.call Symbol.LIST_SET
        [(Can.var shared tyIntList, tyIntList),
         (Can.int i, Ty.int), (Can.int v, Ty.int)])
      (Can.record
        [("x", tyIntList, Can.var x tyIntList),
         ("y", Ty.int,
          Can.call Symbol.LIST_GET_UNSAFE
            [(Can.var shared tyIntList, tyIntList), (Can.int j, Ty.int)])]))

/-- The lowered tree of the shared list program: both the pure update call
and the read on the original binding survive, no in place variant. -/
def sharedListExpected (shared x : Symbol) (es : List Int) (i v j : Int) : Expr :=
  Expr.Store [(shared, intListLayout,
      Expr.Array (Layout.Builtin Builtin.Int64) (es.map Expr.Int))]
    (Expr.Store [(x, intListLayout,
        Expr.CallByName Symbol.LIST_SET
          [(Expr.Load shared, intListLayout),
           (Expr.Int i, Layout.Builtin Builtin.Int64),
           (Expr.Int v, Layout.Builtin Builtin.Int64)])]
      (Expr.Struct
        [(Expr.Load x, intListLayout),
         (Expr.CallByName Symbol.LIST_GET_UNSAFE
            [(Expr.Load shared, intListLayout),
             (Expr.Int j, Layout.Builtin Builtin.Int64)],
          Layout.Builtin Builtin.Int64)]))

/-- A demo generic identity like definition used to exercise
specialization: one parameter, a constant body. -/
def demoDef (p : Symbol) : Def := ⟨[p], Can.int 0, Ty.int⟩

/-- A program calling the same generic definition at two call sites with
identical concrete argument layouts. -/
def twoCallProgram (f : Symbol) (a b : Int) : Can :=
  Can.record
    [("a", Ty.int, Can.call f [(Can.int a, Ty.int)]),
     ("b", Ty.int, Can.call f [(Can.int b, Ty.int)])]

/-- Editor AST pool node identifier (an index into the pool). -/
abbrev NodeId := Nat

/-- Editor AST node: the visible source only shows the Blank variant (the
root of an empty module) and that parsed expressions are pool nodes; the
parsed payload is modelled as an abstract datum. -/
inductive Expr2 where
  | Blank
  | Node (data : Nat)

/-- The editor environment as far as EdModule::new touches it: the AST
node pool.  Adding a node appends it and returns its id. -/
structure Env where
  pool : List Expr2

/-- Pool add: append the node, hand back its index. -/
def Pool.add (pool : List Expr2) (e : Expr2) : List Expr2 × NodeId :=
  (pool ++ [e], pool.length)

/-- The editor module: its environment and the id of its AST root. -/
structure EdModule where
  env : Env
  ast_root_id : NodeId

/-- The editor error type as EdModule::new can produce it: a parse error
carrying the formatted error of the parser. -/
inductive EdError where
  | ParseError (err : String)

/-- Translation of EdModule::new from the editor source: when the code
string is nonempty, run str_to_expr2 and either add the parsed expression
to the pool as the AST root or wrap the parser failure in ParseError; when
it is empty, add Expr2::Blank as the AST root without running the parser.
The parser itself lives outside the visible sources, so it is passed in as
a function; the discarded output component of its success value is kept as
a unit.  Scope construction and the zero region, which have no modelled
effect, are omitted. -/
def EdModule.new (str_to_expr2 : String → Except String (Expr2 × Unit))
    (code_str : String) (env : Env) : Except EdError EdModule :=
  if !code_str.isEmpty then
    match str_to_expr2 code_str with
    | Except.ok (expr2, _output) =>
      let added := Pool.add env.pool expr2
      Except.ok ⟨⟨added.1⟩, added.2⟩
    | Except.error err => Except.error (EdError.ParseError err)
  else
    let added := Pool.add env.pool Expr2.Blank
    Except.ok ⟨⟨added.1⟩, added.2⟩

/-- The procedure table invariant of one lowering step: the table only
grows at the end, every appended key avoids the specializations currently
in progress, and distinctness of the keys is preserved. -/
def ProcsInv (inprog : List ProcKey) (procs procs1 : Procs) : Prop :=
  (∃ new, procs1 = procs ++ new ∧ ∀ k ∈ new.map Prod.fst, keyMem inprog k = false) ∧
  ((procs.map Prod.fst).Nodup → (procs1.map Prod.fst).Nodup)

mutual

/-- Layout equality is reflexive. -/
theorem layoutBeq_refl : ∀ a : Layout, Layout.beq a a = true
  | .Builtin b => by simp [Layout.beq, builtinBeq_refl b]
  | .Struct fs => by simp [Layout.beq, layoutBeqList_refl fs]
  | .Union ts => by simp [Layout.beq, layoutBeqListList_refl ts]
termination_by structural a => a

/-- Builtin layout equality is reflexive. -/
theorem builtinBeq_refl : ∀ a : Builtin, Builtin.beq a a = true
  | .Int64 => rfl
  | .Float64 => rfl
  | .Bool => rfl
  | .Byte => rfl
  | .Str => rfl
  | .List l => by simp [Builtin.beq, layoutBeq_refl l]
termination_by structural a => a

/-- Layout list equality is reflexive. -/
theorem layoutBeqList_refl : ∀ a : List Layout, Layout.beqList a a = true
  | [] => rfl
  | x :: xs => by simp [Layout.beqList, layoutBeq_refl x, layoutBeqList_refl xs]
termination_by structural a => a

/-- Equality of lists of layout lists is reflexive. -/
theorem layoutBeqListList_refl : ∀ a : List (List Layout), Layout.beqListList a a = true
  | [] => rfl
  | x :: xs => by
    simp [Layout.beqListList, layoutBeqList_refl x, layoutBeqListList_refl xs]
termination_by structural a => a

end

/-- Specialization key equality is reflexive. -/
theorem keyBeq_refl (k : ProcKey) : keyBeq k k = true := by
  simp [keyBeq, layoutBeqList_refl]

/-- A key reported absent from a table is not among its keys. -/
theorem not_mem_of_procsContains_eq_false {ps : Procs} {k : ProcKey}
    (h : procsContains ps k = false) : k ∉ ps.map Prod.fst := by
  intro hmem
  rw [List.mem_map] at hmem
  obtain ⟨p, hp, hpk⟩ := hmem
  have : procsContains ps k = true := by
    unfold procsContains
    rw [List.any_eq_true]
    exact ⟨p, hp, by rw [hpk]; exact keyBeq_refl k⟩
  rw [h] at this
  exact Bool.false_ne_true this

/-- A key reported absent from a key list is distinct from all of them. -/
theorem ne_of_keyMem_eq_false {ks : List ProcKey} {k q : ProcKey}
    (h : keyMem ks k = false) (hq : q ∈ ks) : q ≠ k := by
  intro hE
  have : keyMem ks k = true := by
    unfold keyMem
    rw [List.any_eq_true]
    exact ⟨q, hq, by rw [hE]; exact keyBeq_refl k⟩
  rw [h] at this
  exact Bool.false_ne_true this

/-- Interval bound step of the binary search correctness proofs. -/
theorem binary_search_go_some_aux (xs : List Symbol) (t : Symbol) :
    ∀ k left right i, right - left ≤ k →
      binary_search_go xs t left right = some i →
      left ≤ i ∧ i < right ∧ xs.getD i 0 = t := by
  intro k
  induction k with
  | zero =>
    intro l r i hk h
    rw [binary_search_go] at h
    rw [dif_neg (by omega)] at h
    exact absurd h (by simp)
  | succ k ih =>
    intro l r i hk h
    rw [binary_search_go] at h
    by_cases hlr : l < r
    · rw [dif_pos hlr] at h
      simp only at h
      split at h
      · obtain ⟨h1, h2, h3⟩ := ih _ _ i (by omega) h
        exact ⟨by omega, h2, h3⟩
      · split at h
        · obtain ⟨h1, h2, h3⟩ := ih _ _ i (by omega) h
          exact ⟨h1, by omega, h3⟩
        · rename_i hv hv2
          have hv' : ¬xs.getD ((l + r) / 2) 0 < t := hv
          have hv2' : ¬t < xs.getD ((l + r) / 2) 0 := hv2
          have hmid : (l + r) / 2 = i := Option.some_injective _ h
          refine ⟨by omega, by omega, ?_⟩
          rw [← hmid]
          exact Nat.le_antisymm (Nat.le_of_not_lt hv2') (Nat.le_of_not_lt hv')
    · rw [dif_neg hlr] at h
      exact absurd h (by simp)

/-- When binary search answers an index, that index lies in the searched
interval and holds the target. -/
theorem binary_search_go_some (xs : List Symbol) (t : Symbol) :
    ∀ left right, ∀ i, binary_search_go xs t left right = some i →
      left ≤ i ∧ i < right ∧ xs.getD i 0 = t := by
  intro left right i h
  exact binary_search_go_some_aux xs t (right - left) left right i (le_refl _) h

/-- In a sorted list, positions only grow in value. -/
theorem sorted_getD_mono {xs : List Symbol} (hs : List.Sorted (· ≤ ·) xs) :
    ∀ i j, i ≤ j → j < xs.length → xs.getD i 0 ≤ xs.getD j 0 := by
  intro i j hij hj
  rcases Nat.lt_or_ge i j with hlt | hge
  · rw [List.getD_eq_getElem _ _ (by omega), List.getD_eq_getElem _ _ hj]
    have := List.pairwise_iff_get.1 hs ⟨i, by omega⟩ ⟨j, hj⟩ hlt
    simpa using this
  · have : i = j := by omega
    rw [this]

/-- Fuel measured version of the empty handed binary search fact. -/
theorem binary_search_go_none_aux (xs : List Symbol) (t : Symbol)
    (hs : List.Sorted (· ≤ ·) xs) :
    ∀ k left right, right - left ≤ k → right ≤ xs.length →
      binary_search_go xs t left right = none →
      ∀ i, left ≤ i → i < right → xs.getD i 0 ≠ t := by
  intro k
  induction k with
  | zero =>
    intro l r hk hr h i h1 h2
    omega
  | succ k ih =>
    intro l r hk hr h i h1 h2
    rw [binary_search_go] at h
    by_cases hlr : l < r
    · rw [dif_pos hlr] at h
      simp only at h
      split at h
      · rename_i hv
        have hv' : xs.getD ((l + r) / 2) 0 < t := hv
        rcases Nat.lt_or_ge i ((l + r) / 2 + 1) with hi | hi
        · have hm : xs.getD i 0 ≤ xs.getD ((l + r) / 2) 0 :=
            sorted_getD_mono hs i ((l + r) / 2) (by omega) (by omega)
          exact Nat.ne_of_lt (Nat.lt_of_le_of_lt hm hv')
        · exact ih _ _ (by omega) hr h i hi h2
      · split at h
        · rename_i hv hv2
          have hv2' : t < xs.getD ((l + r) / 2) 0 := hv2
          rcases Nat.lt_or_ge i ((l + r) / 2) with hi | hi
          · exact ih _ _ (by omega) (by omega) h i h1 hi
          · have hm : xs.getD ((l + r) / 2) 0 ≤ xs.getD i 0 :=
              sorted_getD_mono hs ((l + r) / 2) i (by omega) (by omega)
            intro hE
            rw [hE] at hm
            exact absurd (Nat.lt_of_lt_of_le hv2' hm) (lt_irrefl t)
        · exact absurd h (by simp)
    · omega

/-- When binary search over a sorted list comes back empty handed, no
position of the searched interval holds the target. -/
theorem binary_search_go_none (xs : List Symbol) (t : Symbol)
    (hs : List.Sorted (· ≤ ·) xs) :
    ∀ left right, right ≤ xs.length →
      binary_search_go xs t left right = none →
      ∀ i, left ≤ i → i < right → xs.getD i 0 ≠ t := by
  intro left right hr h i h1 h2
  exact binary_search_go_none_aux xs t hs (right - left) left right (le_refl _) hr h i h1 h2

/-- A successful whole list binary search names a position of the
target. -/
theorem binary_search_some {xs : List Symbol} {t : Symbol} {i : Nat}
    (h : binary_search xs t = some i) : i < xs.length ∧ xs.getD i 0 = t := by
  obtain ⟨h1, h2, h3⟩ := binary_search_go_some xs t 0 xs.length i h
  exact ⟨h2, h3⟩

/-- A failed whole list binary search over a sorted list means the target
does not occur. -/
theorem binary_search_none {xs : List Symbol} {t : Symbol}
    (hs : List.Sorted (· ≤ ·) xs) (h : binary_search xs t = none) : t ∉ xs := by
  intro hmem
  rw [List.mem_iff_getElem] at hmem
  obtain ⟨n, hn, he⟩ := hmem
  have := binary_search_go_none xs t hs 0 xs.length (le_refl _) h n (Nat.zero_le n) hn
  rw [List.getD_eq_getElem _ _ hn] at this
  exact this he

/-- Removing the element at a position holding s is, up to permutation,
removing one occurrence of s. -/
theorem eraseIdx_cons_perm {s : Symbol} :
    ∀ (c : List Symbol) (i : Nat), i < c.length → c.getD i 0 = s →
      c.Perm (s :: c.eraseIdx i) := by
  intro c
  induction c with
  | nil => intro i hi; simp at hi
  | cons a rest ih =>
    intro i hi hg
    match i with
    | 0 =>
      simp at hg
      rw [hg]
      simp [List.eraseIdx]
    | k+1 =>
      simp at hi
      have hg' : rest.getD k 0 = s := hg
      have hp := ih k hi hg'
      show (a :: rest).Perm (s :: a :: rest.eraseIdx k)
      exact List.Perm.trans (hp.cons a) (List.Perm.swap s a _)

/-- One bookkeeping step on a sorted expected list either removes a
present occurrence or records the symbol as unexpected. -/
theorem check_off_cases {c u : List Symbol} {s : Symbol}
    (hs : List.Sorted (· ≤ ·) c) :
    (∃ i, i < c.length ∧ c.getD i 0 = s ∧ check_off (c, u) s = (c.eraseIdx i, u)) ∨
    (s ∉ c ∧ check_off (c, u) s = (c, u ++ [s])) := by
  unfold check_off
  cases h : binary_search c s with
  | some i =>
    left
    obtain ⟨h1, h2⟩ := binary_search_some h
    exact ⟨i, h1, h2, rfl⟩
  | none =>
    right
    exact ⟨binary_search_none hs h, rfl⟩

/-- Invariant of the bookkeeping fold: the remaining expected calls stay
sorted and form a sublist of where they started, everything recorded as
unexpected was genuinely not coverable, and the multisets balance: what
remains plus what was seen equals what was expected plus what was
unexpected. -/
theorem foldl_check_off_inv :
    ∀ (syms c u c1 u1 : List Symbol), List.Sorted (· ≤ ·) c →
      List.foldl check_off (c, u) syms = (c1, u1) →
      List.Sorted (· ≤ ·) c1 ∧ c1.Sublist c ∧
      ∃ extra, u1 = u ++ extra ∧
        ((c1 : Multiset Symbol) + (syms : Multiset Symbol) =
          (c : Multiset Symbol) + (extra : Multiset Symbol)) ∧
        ∀ s ∈ extra, s ∉ c1 := by
  intro syms
  induction syms with
  | nil =>
    intro c u c1 u1 hs h
    simp only [List.foldl_nil] at h
    injection h with h1 h2
    subst h1
    subst h2
    exact ⟨hs, List.Sublist.refl c, [], by simp, by simp, by simp⟩
  | cons s rest ih =>
    intro c u c1 u1 hs h
    simp only [List.foldl_cons] at h
    rcases @check_off_cases _ u s hs with ⟨i, hi, hg, heq⟩ | ⟨hnm, heq⟩
    · rw [heq] at h
      have hperm := eraseIdx_cons_perm c i hi hg
      have hs1 : List.Sorted (· ≤ ·) (c.eraseIdx i) :=
        List.Pairwise.sublist (List.eraseIdx_sublist c i) hs
      obtain ⟨hs1', hsub, extra, hu, hms, hni⟩ := ih _ _ _ _ hs1 h
      refine ⟨hs1', hsub.trans (List.eraseIdx_sublist c i), extra, hu, ?_, hni⟩
      have hc : (c : Multiset Symbol) = s ::ₘ (c.eraseIdx i : Multiset Symbol) := by
        rw [Multiset.cons_coe]
        exact Multiset.coe_eq_coe.2 hperm
      calc (c1 : Multiset Symbol) + (s :: rest : List Symbol)
          = s ::ₘ ((c1 : Multiset Symbol) + (rest : Multiset Symbol)) := by
            rw [← Multiset.cons_coe]
            exact Multiset.add_cons _ _ _
        _ = s ::ₘ ((c.eraseIdx i : Multiset Symbol) + (extra : Multiset Symbol)) := by
            rw [hms]
        _ = (c : Multiset Symbol) + (extra : Multiset Symbol) := by
            rw [hc, Multiset.cons_add]
    · rw [heq] at h
      obtain ⟨hs1', hsub, extra, hu, hms, hni⟩ := ih _ _ _ _ hs h
      refine ⟨hs1', hsub, s :: extra, ?_, ?_, ?_⟩
      · rw [hu]
        simp
      · calc (c1 : Multiset Symbol) + (s :: rest : List Symbol)
            = s ::ₘ ((c1 : Multiset Symbol) + (rest : Multiset Symbol)) := by
              rw [← Multiset.cons_coe]
              exact Multiset.add_cons _ _ _
          _ = s ::ₘ ((c : Multiset Symbol) + (extra : Multiset Symbol)) := by rw [hms]
          _ = (c : Multiset Symbol) + (s :: extra : List Symbol) := by
              rw [← Multiset.cons_coe]
              rw [Multiset.add_cons]
      · intro q hq
        rcases List.mem_cons.1 hq with rfl | hq'
        · exact fun hqc => hnm (hsub.subset hqc)
        · exact hni q hq'

mutual

/-- The tree walk of the test helper is the bookkeeping fold over the
callee symbols in visit order. -/
theorem extract_help_eq_foldl :
    ∀ (e : Expr) (st : List Symbol × List Symbol),
      extract_named_calls_help e st = List.foldl check_off st (callees e)
  | .Int _, _ => rfl
  | .Float _, _ => rfl
  | .Str _, _ => rfl
  | .Bool _, _ => rfl
  | .Byte _, _ => rfl
  | .Load _, _ => rfl
  | .FunctionPointer _, _ => rfl
  | .Jump _, _ => rfl
  | .RuntimeError _, _ => rfl
  | .Store paths body, st => by
    show extract_named_calls_help body (extract_store paths st) =
      List.foldl check_off st (calleesStore paths ++ callees body)
    rw [List.foldl_append, extract_store_eq_foldl paths st,
      extract_help_eq_foldl body (List.foldl check_off st (calleesStore paths))]
  | .CallByPointer fn args _, st => by
    show extract_list args (extract_named_calls_help fn st) =
      List.foldl check_off st (callees fn ++ calleesList args)
    rw [List.foldl_append, extract_help_eq_foldl fn st,
      extract_list_eq_foldl args (List.foldl check_off st (callees fn))]
  | .CallByName name args, st => by
    show extract_args args (check_off st name) =
      List.foldl check_off st (name :: calleesArgs args)
    rw [List.foldl_cons, extract_args_eq_foldl args (check_off st name)]
  | .Cond cond _ pass fail _, st => by
    show extract_named_calls_help fail
        (extract_named_calls_help pass (extract_named_calls_help cond st)) =
      List.foldl check_off st (callees cond ++ callees pass ++ callees fail)
    rw [List.foldl_append, List.foldl_append, extract_help_eq_foldl cond st,
      extract_help_eq_foldl pass (List.foldl check_off st (callees cond)),
      extract_help_eq_foldl fail
        (List.foldl check_off (List.foldl check_off st (callees cond)) (callees pass))]
  | .Branches cond branches default _, st => by
    show extract_triples branches
        (extract_named_calls_help default (extract_named_calls_help cond st)) =
      List.foldl check_off st (callees cond ++ callees default ++ calleesTriples branches)
    rw [List.foldl_append, List.foldl_append, extract_help_eq_foldl cond st,
      extract_help_eq_foldl default (List.foldl check_off st (callees cond)),
      extract_triples_eq_foldl branches
        (List.foldl check_off (List.foldl check_off st (callees cond)) (callees default))]
  | .Switch cond _ branches default _, st => by
    show extract_switch branches
        (extract_named_calls_help default (extract_named_calls_help cond st)) =
      List.foldl check_off st (callees cond ++ callees default ++ calleesSwitch branches)
    rw [List.foldl_append, List.foldl_append, extract_help_eq_foldl cond st,
      extract_help_eq_foldl default (List.foldl check_off st (callees cond)),
      extract_switch_eq_foldl branches
        (List.foldl check_off (List.foldl check_off st (callees cond)) (callees default))]
  | .Tag _ _ _ _ arguments, st => by
    show extract_args arguments st = List.foldl check_off st (calleesArgs arguments)
    rw [extract_args_eq_foldl arguments st]
  | .Struct fields, st => by
    show extract_args fields st = List.foldl check_off st (calleesArgs fields)
    rw [extract_args_eq_foldl fields st]
  | .Access _ _ _ record, st => extract_help_eq_foldl record st
  | .AccessAtIndex _ _ sub _, st => extract_help_eq_foldl sub st
  | .Label _ body, st => extract_help_eq_foldl body st
  | .Array _ elems, st => by
    show extract_list elems st = List.foldl check_off st (calleesList elems)
    rw [extract_list_eq_foldl elems st]
termination_by structural e => e

/-- Store path walk as a fold. -/
theorem extract_store_eq_foldl :
    ∀ (l : List (Symbol × Layout × Expr)) (st : List Symbol × List Symbol),
      extract_store l st = List.foldl check_off st (calleesStore l)
  | [], _ => rfl
  | (_, _, e) :: rest, st => by
    show extract_store rest (extract_named_calls_help e st) =
      List.foldl check_off st (callees e ++ calleesStore rest)
    rw [List.foldl_append, extract_help_eq_foldl e st,
      extract_store_eq_foldl rest (List.foldl check_off st (callees e))]
termination_by structural l => l

/-- Expression list walk as a fold. -/
theorem extract_list_eq_foldl :
    ∀ (l : List Expr) (st : List Symbol × List Symbol),
      extract_list l st = List.foldl check_off st (calleesList l)
  | [], _ => rfl
  | e :: rest, st => by
    show extract_list rest (extract_named_calls_help e st) =
      List.foldl check_off st (callees e ++ calleesList rest)
    rw [List.foldl_append, extract_help_eq_foldl e st,
      extract_list_eq_foldl rest (List.foldl check_off st (callees e))]
termination_by structural l => l

/-- Argument pair walk as a fold. -/
theorem extract_args_eq_foldl :
    ∀ (l : List (Expr × Layout)) (st : List Symbol × List Symbol),
      extract_args l st = List.foldl check_off st (calleesArgs l)
  | [], _ => rfl
  | (e, _) :: rest, st => by
    show extract_args rest (extract_named_calls_help e st) =
      List.foldl check_off st (callees e ++ calleesArgs rest)
    rw [List.foldl_append, extract_help_eq_foldl e st,
      extract_args_eq_foldl rest (List.foldl check_off st (callees e))]
termination_by structural l => l

/-- Branches arm walk as a fold. -/
theorem extract_triples_eq_foldl :
    ∀ (l : List (Expr × Expr × Expr)) (st : List Symbol × List Symbol),
      extract_triples l st = List.foldl check_off st (calleesTriples l)
  | [], _ => rfl
  | (a, b, c) :: rest, st => by
    show extract_triples rest
        (extract_named_calls_help c
          (extract_named_calls_help b (extract_named_calls_help a st))) =
      List.foldl check_off st
        (callees a ++ callees b ++ callees c ++ calleesTriples rest)
    rw [List.foldl_append, List.foldl_append, List.foldl_append,
      extract_help_eq_foldl a st,
      extract_help_eq_foldl b (List.foldl check_off st (callees a)),
      extract_help_eq_foldl c
        (List.foldl check_off (List.foldl check_off st (callees a)) (callees b)),
      extract_triples_eq_foldl rest
        (List.foldl check_off
          (List.foldl check_off (List.foldl check_off st (callees a)) (callees b))
          (callees c))]
termination_by structural l => l

/-- Switch arm walk as a fold. -/
theorem extract_switch_eq_foldl :
    ∀ (l : List (Nat × Expr)) (st : List Symbol × List Symbol),
      extract_switch l st = List.foldl check_off st (calleesSwitch l)
  | [], _ => rfl
  | (_, e) :: rest, st => by
    show extract_switch rest (extract_named_calls_help e st) =
      List.foldl check_off st (callees e ++ calleesSwitch rest)
    rw [List.foldl_append, extract_help_eq_foldl e st,
      extract_switch_eq_foldl rest (List.foldl check_off st (callees e))]
termination_by structural l => l

end

/-- C9: the test helper extract_named_calls reports no missing and no
unexpected calls exactly when the multiset of CallByName callee symbols of
the lowered tree equals the expected call list as a multiset; every
CallByName occurrence consumes at most one matching entry, and the leaf
variants, a Jump target included, contribute no named calls. -/
theorem claim_C9 (e : Expr) (calls : List Symbol) :
    extract_named_calls e calls = ([], []) ↔
      ((callees e : Multiset Symbol) = (calls : Multiset Symbol)) := by
  have hsorted : List.Sorted (· ≤ ·) (calls.insertionSort (· ≤ ·)) :=
    List.sorted_insertionSort (· ≤ ·) calls
  have hperm : (calls.insertionSort (· ≤ ·)).Perm calls :=
    List.perm_insertionSort (· ≤ ·) calls
  have hcoe : ((calls.insertionSort (· ≤ ·) : List Symbol) : Multiset Symbol) =
      (calls : Multiset Symbol) := Multiset.coe_eq_coe.2 hperm
  unfold extract_named_calls
  rw [extract_help_eq_foldl]
  constructor
  · intro h
    obtain ⟨hs', hsub, extra, hu, hms, hni⟩ :=
      foldl_check_off_inv (callees e) _ [] [] [] hsorted h
    have hextra : extra = [] := by simpa using hu.symm
    subst hextra
    rw [hcoe] at hms
    simpa using hms
  · intro h
    rcases hres : List.foldl check_off (calls.insertionSort (· ≤ ·), []) (callees e)
      with ⟨c1, u1⟩
    obtain ⟨hs', hsub, extra, hu, hms, hni⟩ :=
      foldl_check_off_inv (callees e) _ [] c1 u1 hsorted hres
    have hce : (c1 : Multiset Symbol) = (extra : Multiset Symbol) := by
      rw [h, hcoe, add_comm ((calls : Multiset Symbol)) ((extra : Multiset Symbol))] at hms
      exact add_right_cancel hms
    have hc1 : c1 = [] := by
      cases c1 with
      | nil => rfl
      | cons x xs =>
        exfalso
        have hx : x ∈ extra := by
          have hx0 : x ∈ ((x :: xs : List Symbol) : Multiset Symbol) := by simp
          rw [hce] at hx0
          simpa using hx0
        exact hni x hx (by simp)
    subst hc1
    have hextra : extra = [] := by
      have h0 : (extra : Multiset Symbol) = 0 := by
        rw [← hce]
        simp
      simpa using h0
    rw [hu, hextra]
    rfl


/-- Characters with equal code points are equal. -/
theorem char_eq_of_toNat_eq {a b : Char} (h : a.toNat = b.toNat) : a = b :=
  Char.ext (UInt32.ext h)

/-- The character list order is total. -/
theorem strLeList_total : ∀ as bs, strLeList as bs = true ∨ strLeList bs as = true := by
  intro as
  induction as with
  | nil => intro bs; left; rfl
  | cons a as ih =>
    intro bs
    cases bs with
    | nil => right; rfl
    | cons b bs2 =>
      by_cases h1 : a.toNat < b.toNat
      · left
        simp [strLeList, h1]
      · by_cases h2 : b.toNat < a.toNat
        · right
          simp [strLeList, h2]
        · rcases ih bs2 with h | h
          · left
            simp [strLeList, h1, h2, h]
          · right
            simp [strLeList, h1, h2, h]

/-- The character list order is transitive. -/
theorem strLeList_trans : ∀ as bs cs, strLeList as bs = true → strLeList bs cs = true →
    strLeList as cs = true := by
  intro as
  induction as with
  | nil => intro bs cs h1 h2; rfl
  | cons a as ih =>
    intro bs cs h1 h2
    cases bs with
    | nil => simp [strLeList] at h1
    | cons b bs2 =>
      cases cs with
      | nil => simp [strLeList] at h2
      | cons c cs2 =>
        simp only [strLeList] at h1 h2 ⊢
        by_cases hab : a.toNat < b.toNat
        · rw [if_pos hab] at h1
          by_cases hbc : b.toNat < c.toNat
          · rw [if_pos (by omega)]
          · rw [if_neg hbc] at h2
            by_cases hcb : c.toNat < b.toNat
            · rw [if_pos hcb] at h2
              exact absurd h2 (by simp)
            · rw [if_pos (by omega)]
        · rw [if_neg hab] at h1
          by_cases hba : b.toNat < a.toNat
          · rw [if_pos hba] at h1
            exact absurd h1 (by simp)
          · rw [if_neg hba] at h1
            by_cases hbc : b.toNat < c.toNat
            · rw [if_pos (by omega)]
            · rw [if_neg hbc] at h2
              by_cases hcb : c.toNat < b.toNat
              · rw [if_pos hcb] at h2
                exact absurd h2 (by simp)
              · rw [if_neg hcb] at h2
                rw [if_neg (by omega), if_neg (by omega)]
                exact ih bs2 cs2 h1 h2

/-- The character list order is antisymmetric. -/
theorem strLeList_antisymm : ∀ as bs, strLeList as bs = true → strLeList bs as = true →
    as = bs := by
  intro as
  induction as with
  | nil =>
    intro bs h1 h2
    cases bs with
    | nil => rfl
    | cons b bs2 => simp [strLeList] at h2
  | cons a as ih =>
    intro bs h1 h2
    cases bs with
    | nil => simp [strLeList] at h1
    | cons b bs2 =>
      simp only [strLeList] at h1 h2
      by_cases hab : a.toNat < b.toNat
      · rw [if_neg (by omega), if_pos hab] at h2
        exact absurd h2 (by simp)
      · rw [if_neg hab] at h1
        by_cases hba : b.toNat < a.toNat
        · rw [if_pos hba] at h1
          exact absurd h1 (by simp)
        · rw [if_neg hba] at h1
          rw [if_neg (by omega), if_neg (by omega)] at h2
          have hc : a = b := char_eq_of_toNat_eq (by omega)
          rw [hc, ih bs2 h1 h2]

/-- The string order is total. -/
theorem strLe_total (a b : String) : strLe a b = true ∨ strLe b a = true :=
  strLeList_total a.data b.data

/-- The string order is transitive. -/
theorem strLe_trans (a b c : String) (h1 : strLe a b = true) (h2 : strLe b c = true) :
    strLe a c = true :=
  strLeList_trans a.data b.data c.data h1 h2

/-- The string order is antisymmetric. -/
theorem strLe_antisymm (a b : String) (h1 : strLe a b = true) (h2 : strLe b a = true) :
    a = b :=
  String.ext (strLeList_antisymm a.data b.data h1 h2)

/-- Field layout resolution fails exactly when some field type has no
layout. -/
theorem layoutFields_eq_none_iff : ∀ l : List (String × Ty),
    layoutFields l = none ↔ ∃ p ∈ l, layout_of p.2 = none := by
  intro l
  induction l with
  | nil => simp [layoutFields]
  | cons p rest ih =>
    obtain ⟨name, t⟩ := p
    constructor
    · intro h
      cases h1 : layout_of t with
      | none => exact ⟨(name, t), by simp, h1⟩
      | some l1 =>
        cases h2 : layoutFields rest with
        | none =>
          obtain ⟨q, hq, hq2⟩ := ih.1 h2
          exact ⟨q, by simp [hq], hq2⟩
        | some ls =>
          rw [show layoutFields ((name, t) :: rest) =
            (match layout_of t, layoutFields rest with
              | some l, some ls => some ((name, l) :: ls)
              | _, _ => none) from rfl, h1, h2] at h
          exact absurd h (by simp)
    · intro h
      obtain ⟨q, hq, hq2⟩ := h
      rcases List.mem_cons.1 hq with rfl | hq3
      · have hq2a : layout_of t = none := hq2
        rw [show layoutFields ((name, t) :: rest) =
          (match layout_of t, layoutFields rest with
            | some l, some ls => some ((name, l) :: ls)
            | _, _ => none) from rfl, hq2a]
      · have h2 : layoutFields rest = none := ih.2 ⟨q, hq3, hq2⟩
        rw [show layoutFields ((name, t) :: rest) =
          (match layout_of t, layoutFields rest with
            | some l, some ls => some ((name, l) :: ls)
            | _, _ => none) from rfl, h2]
        cases layout_of t <;> rfl

/-- Successful field layout resolution is the per field map. -/
theorem layoutFields_eq_some : ∀ (l : List (String × Ty)) (r : List (String × Layout)),
    layoutFields l = some r →
      r = l.map (fun p => (p.1, (layout_of p.2).getD (Layout.Struct []))) := by
  intro l
  induction l with
  | nil =>
    intro r h
    simp [layoutFields] at h
    simp [h.symm]
  | cons p rest ih =>
    obtain ⟨name, t⟩ := p
    intro r h
    rw [show layoutFields ((name, t) :: rest) =
      (match layout_of t, layoutFields rest with
        | some l, some ls => some ((name, l) :: ls)
        | _, _ => none) from rfl] at h
    cases h1 : layout_of t with
    | none => rw [h1] at h; exact absurd h (by simp)
    | some l1 =>
      cases h2 : layoutFields rest with
      | none => rw [h1, h2] at h; exact absurd h (by simp)
      | some ls =>
        rw [h1, h2] at h
        simp only [Option.some_injective] at h
        have hr : r = (name, l1) :: ls := by
          injection h with h3
          exact h3.symm
        rw [hr, ih ls h2]
        simp [h1]

/-- The keyed sort only depends on the multiset of entries once the keys
are distinct. -/
theorem sortByKey_congr {b : Type} (r1 r2 : List (String × b)) (hp : r1.Perm r2)
    (hn : (r1.map Prod.fst).Nodup) : sortByKey r1 = sortByKey r2 := by
  unfold sortByKey
  haveI htr : IsTrans (String × b) (fun p q => strLe p.1 q.1 = true) :=
    ⟨fun p q w h1 h2 => strLe_trans p.1 q.1 w.1 h1 h2⟩
  haveI hto : IsTotal (String × b) (fun p q => strLe p.1 q.1 = true) :=
    ⟨fun p q => strLe_total p.1 q.1⟩
  have hs1 := List.sorted_insertionSort (fun p q : String × b => strLe p.1 q.1 = true) r1
  have hs2 := List.sorted_insertionSort (fun p q : String × b => strLe p.1 q.1 = true) r2
  have hp1 := List.perm_insertionSort (fun p q : String × b => strLe p.1 q.1 = true) r1
  have hp2 := List.perm_insertionSort (fun p q : String × b => strLe p.1 q.1 = true) r2
  have hn1 : ((List.insertionSort (fun p q : String × b => strLe p.1 q.1 = true) r1).map
      Prod.fst).Nodup := (List.Perm.nodup_iff (hp1.map Prod.fst)).2 hn
  have hn2 : ((List.insertionSort (fun p q : String × b => strLe p.1 q.1 = true) r2).map
      Prod.fst).Nodup := by
    refine (List.Perm.nodup_iff (hp2.map Prod.fst)).2 ?_
    exact (List.Perm.nodup_iff (hp.map Prod.fst)).1 hn
  have hstrict1 : List.Pairwise
      (fun p q : String × b => (strLe p.1 q.1 = true) ∧ p.1 ≠ q.1)
      (List.insertionSort (fun p q : String × b => strLe p.1 q.1 = true) r1) :=
    hs1.and (List.pairwise_map.1 hn1)
  have hstrict2 : List.Pairwise
      (fun p q : String × b => (strLe p.1 q.1 = true) ∧ p.1 ≠ q.1)
      (List.insertionSort (fun p q : String × b => strLe p.1 q.1 = true) r2) :=
    hs2.and (List.pairwise_map.1 hn2)
  haveI : IsAntisymm (String × b) (fun p q => (strLe p.1 q.1 = true) ∧ p.1 ≠ q.1) :=
    ⟨fun p q h1 h2 => absurd (strLe_antisymm p.1 q.1 h1.1 h2.1) h1.2⟩
  exact List.eq_of_perm_of_sorted (hp1.trans (hp.trans hp2.symm)) hstrict1 hstrict2


/-- C5: layout resolution is deterministic, and two structurally
identical record types, i.e. with the same fields listed in any order
under distinct field names, produce a struct layout with identical field
ordering, since fields are ordered by sorted field name. -/
theorem claim_C5 :
    (∀ t : Ty, layout_of t = layout_of t) ∧
    (∀ f1 f2 : List (String × Ty), f1.Perm f2 → (f1.map Prod.fst).Nodup →
      layout_of (Ty.record f1) = layout_of (Ty.record f2)) := by
  refine ⟨fun t => rfl, fun f1 f2 hp hn => ?_⟩
  have hunf : ∀ f : List (String × Ty), layout_of (Ty.record f) =
      (match layoutFields f with
        | some fl => some (Layout.Struct ((sortByKey fl).map Prod.snd))
        | none => none) := fun f => rfl
  rw [hunf f1, hunf f2]
  cases h1 : layoutFields f1 with
  | none =>
    cases h2 : layoutFields f2 with
    | none => rfl
    | some r2 =>
      exfalso
      obtain ⟨q, hq, hq2⟩ := (layoutFields_eq_none_iff f1).1 h1
      have : layoutFields f2 = none :=
        (layoutFields_eq_none_iff f2).2 ⟨q, (hp.mem_iff).1 hq, hq2⟩
      rw [h2] at this
      exact absurd this (by simp)
  | some r1 =>
    cases h2 : layoutFields f2 with
    | none =>
      exfalso
      obtain ⟨q, hq, hq2⟩ := (layoutFields_eq_none_iff f2).1 h2
      have : layoutFields f1 = none :=
        (layoutFields_eq_none_iff f1).2 ⟨q, (hp.mem_iff).2 hq, hq2⟩
      rw [h1] at this
      exact absurd this (by simp)
    | some r2 =>
      have e1 := layoutFields_eq_some f1 r1 h1
      have e2 := layoutFields_eq_some f2 r2 h2
      have hpr : r1.Perm r2 := by
        rw [e1, e2]
        exact hp.map _
      have hnr : (r1.map Prod.fst).Nodup := by
        rw [e1, List.map_map]
        have hfst : (Prod.fst ∘ fun p : String × Ty =>
            (p.1, (layout_of p.2).getD (Layout.Struct []))) = Prod.fst := by
          funext p
          rfl
        rw [hfst]
        exact hn
      show some (Layout.Struct ((sortByKey r1).map Prod.snd)) =
        some (Layout.Struct ((sortByKey r2).map Prod.snd))
      rw [sortByKey_congr r1 r2 hpr hnr]

/-- Witness: the claim applied to the two orderings of a concrete two
field record type. -/
theorem claim_C5_witness :
    layout_of (Ty.record [("b", Ty.int), ("a", Ty.str)]) =
      layout_of (Ty.record [("a", Ty.str), ("b", Ty.int)]) :=
  claim_C5.2 [("b", Ty.int), ("a", Ty.str)] [("a", Ty.str), ("b", Ty.int)]
    (List.Perm.swap ("a", Ty.str) ("b", Ty.int) []) (by decide)


/-- Lowering a list of integer literal elements succeeds with the literal
images once the fuel exceeds the list length. -/
theorem lowerElems_int :
    ∀ (es : List Int) (fuel : Nat) (defs : Defs) (current : Option Symbol)
      (uniq : List Symbol) (inprog : List ProcKey) (procs : Procs),
      es.length < fuel →
      lowerElems fuel defs current uniq inprog (es.map Can.int) procs =
        some (es.map Expr.Int, procs) := by
  intro es
  induction es with
  | nil =>
    intro fuel defs current uniq inprog procs h
    simp only [List.length_nil] at h
    obtain ⟨g, rfl⟩ : ∃ k, fuel = k + 1 := ⟨fuel - 1, by omega⟩
    rfl
  | cons c rest ih =>
    intro fuel defs current uniq inprog procs h
    simp only [List.length_cons] at h
    obtain ⟨g, rfl⟩ : ∃ k, fuel = k + 1 := ⟨fuel - 1, by omega⟩
    obtain ⟨g2, rfl⟩ : ∃ k, g = k + 1 := ⟨g - 1, by omega⟩
    simp only [List.map_cons, lowerElems, Expr.new]
    rw [ih (g2 + 1) defs current uniq inprog procs (by omega)]

/-- Integer literals contribute no named calls. -/
theorem calleesList_map_int : ∀ es : List Int, calleesList (es.map Expr.Int) = [] := by
  intro es
  induction es with
  | nil => rfl
  | cons c rest ih => simp [calleesList, callees, ih]

/-- C1: a list constructed once and consumed in a single update then read
chain lowers with the in place update variant: the result is the read call
whose first argument is the in place update call applied directly to the
array literal, and no call to the pure update variant remains anywhere in
the lowered tree. -/
theorem claim_C1 : ∀ (es : List Int) (i v j : Int) (fuel : Nat),
    es.length + 6 < fuel →
    Expr.new fuel [] none false [] [] (uniqueChainProgram es i v j) [] =
      some (uniqueChainExpected es i v j, []) ∧
    Symbol.LIST_SET ∉ callees (uniqueChainExpected es i v j) := by
  intro es i v j fuel h
  constructor
  · obtain ⟨f1, rfl⟩ : ∃ k, fuel = k + 1 := ⟨fuel - 1, by omega⟩
    obtain ⟨f2, rfl⟩ : ∃ k, f1 = k + 1 := ⟨f1 - 1, by omega⟩
    obtain ⟨f3, rfl⟩ : ∃ k, f2 = k + 1 := ⟨f2 - 1, by omega⟩
    obtain ⟨f4, rfl⟩ : ∃ k, f3 = k + 1 := ⟨f3 - 1, by omega⟩
    obtain ⟨f5, rfl⟩ : ∃ k, f4 = k + 1 := ⟨f4 - 1, by omega⟩
    obtain ⟨f6, rfl⟩ : ∃ k, f5 = k + 1 := ⟨f5 - 1, by omega⟩
    obtain ⟨f7, rfl⟩ : ∃ k, f6 = k + 1 := ⟨f6 - 1, by omega⟩
    simp only [uniqueChainProgram, uniqueChainExpected, Expr.new, lowerCallArgs, tyIntList,
      layout_of, lookupDef, List.find?, arg_is_unique, intListLayout]
    rw [lowerElems_int es (f7 + 2) [] none [] [] [] (by omega)]
    simp [Symbol.LIST_GET_UNSAFE, Symbol.LIST_SET, Symbol.LIST_SET_IN_PLACE]
  · simp [uniqueChainExpected, callees, calleesArgs, calleesList_map_int,
      Symbol.LIST_SET, Symbol.LIST_GET_UNSAFE, Symbol.LIST_SET_IN_PLACE]

/-- Witness: the claim at the program of the set_unique_int_list test. -/
theorem claim_C1_witness :
    Expr.new 100 [] none false [] [] (uniqueChainProgram [12, 9, 7, 3] 1 42 1) [] =
      some (uniqueChainExpected [12, 9, 7, 3] 1 42 1, []) ∧
    Symbol.LIST_SET ∉ callees (uniqueChainExpected [12, 9, 7, 3] 1 42 1) :=
  claim_C1 [12, 9, 7, 3] 1 42 1 100 (by decide)

/-- C2: a list bound to a name, updated functionally, with the original
name read again afterwards, keeps the pure update call and the read call:
the lowered tree holds exactly the callee symbols List.set and
List.getUnsafe, with no in place variant anywhere. -/
theorem claim_C2 : ∀ (shared x : Symbol) (es : List Int) (i v j : Int) (fuel : Nat),
    es.length + 8 < fuel →
    Expr.new fuel [] none false [] [] (sharedListProgram shared x es i v j) [] =
      some (sharedListExpected shared x es i v j, []) ∧
    callees (sharedListExpected shared x es i v j) =
      [Symbol.LIST_SET, Symbol.LIST_GET_UNSAFE] ∧
    Symbol.LIST_SET_IN_PLACE ∉ callees (sharedListExpected shared x es i v j) := by
  intro shared x es i v j fuel h
  have hcal : callees (sharedListExpected shared x es i v j) =
      [Symbol.LIST_SET, Symbol.LIST_GET_UNSAFE] := by
    simp [sharedListExpected, callees, calleesStore, calleesArgs, calleesList_map_int]
  refine ⟨?_, hcal, ?_⟩
  · obtain ⟨f1, rfl⟩ : ∃ k, fuel = k + 1 := ⟨fuel - 1, by omega⟩
    obtain ⟨f2, rfl⟩ : ∃ k, f1 = k + 1 := ⟨f1 - 1, by omega⟩
    obtain ⟨f3, rfl⟩ : ∃ k, f2 = k + 1 := ⟨f2 - 1, by omega⟩
    obtain ⟨f4, rfl⟩ : ∃ k, f3 = k + 1 := ⟨f3 - 1, by omega⟩
    obtain ⟨f5, rfl⟩ : ∃ k, f4 = k + 1 := ⟨f4 - 1, by omega⟩
    obtain ⟨f6, rfl⟩ : ∃ k, f5 = k + 1 := ⟨f5 - 1, by omega⟩
    obtain ⟨f7, rfl⟩ : ∃ k, f6 = k + 1 := ⟨f6 - 1, by omega⟩
    obtain ⟨f8, rfl⟩ : ∃ k, f7 = k + 1 := ⟨f7 - 1, by omega⟩
    obtain ⟨f9, rfl⟩ : ∃ k, f8 = k + 1 := ⟨f8 - 1, by omega⟩
    have hxy : strLe "x" "y" = true := rfl
    simp only [sharedListProgram, sharedListExpected, Expr.new, lowerCallArgs, lowerFields,
      tyIntList, layout_of, lookupDef, List.find?, arg_is_unique, intListLayout,
      sortByKey, List.insertionSort, List.orderedInsert, hxy]
    rw [lowerElems_int es (f9 + 7) [] none [] [] [] (by omega)]
    simp only [Symbol.LIST_GET_UNSAFE, Symbol.LIST_SET, Symbol.LIST_SET_IN_PLACE]
    simp [binds_unique_list]
    simp only [countUses, countUsesArgs, countUsesFields, countUsesList]
    by_cases hxs : x == shared
    · simp [hxs]
    · simp [hxs]
  · rw [hcal]
    simp [Symbol.LIST_SET, Symbol.LIST_GET_UNSAFE, Symbol.LIST_SET_IN_PLACE]

/-- Witness: the claim at the program of the set_shared_int_list test. -/
theorem claim_C2_witness :
    Expr.new 100 [] none false [] [] (sharedListProgram 7 8 [2, 4] 1 0 1) [] =
      some (sharedListExpected 7 8 [2, 4] 1 0 1, []) ∧
    callees (sharedListExpected 7 8 [2, 4] 1 0 1) =
      [Symbol.LIST_SET, Symbol.LIST_GET_UNSAFE] ∧
    Symbol.LIST_SET_IN_PLACE ∉ callees (sharedListExpected 7 8 [2, 4] 1 0 1) :=
  claim_C2 7 8 [2, 4] 1 0 1 100 (by decide)

/-- C3: every literal canonical node lowers to the matching literal Expr
variant with the exact value preserved; in particular the integer literal
5 lowers to Int 5 and the float literal 0.5 lowers to Float 0.5. -/
theorem claim_C3 :
    (∀ fuel defs current tail uniq inprog procs (n : Int),
      Expr.new (fuel+1) defs current tail uniq inprog (Can.int n) procs =
        some (Expr.Int n, procs)) ∧
    (∀ fuel defs current tail uniq inprog procs (x : Rat),
      Expr.new (fuel+1) defs current tail uniq inprog (Can.float x) procs =
        some (Expr.Float x, procs)) ∧
    (∀ fuel defs current tail uniq inprog procs (b : Bool),
      Expr.new (fuel+1) defs current tail uniq inprog (Can.bool b) procs =
        some (Expr.Bool b, procs)) ∧
    (∀ fuel defs current tail uniq inprog procs (b : Nat),
      Expr.new (fuel+1) defs current tail uniq inprog (Can.byte b) procs =
        some (Expr.Byte b, procs)) ∧
    (∀ fuel defs current tail uniq inprog procs (s : String),
      Expr.new (fuel+1) defs current tail uniq inprog (Can.str s) procs =
        some (Expr.Str s, procs)) ∧
    Expr.new 1 [] none false [] [] (Can.int 5) [] = some (Expr.Int 5, []) ∧
    Expr.new 1 [] none false [] [] (Can.float (0.5 : Rat)) [] =
      some (Expr.Float (0.5 : Rat), []) :=
  ⟨fun _ _ _ _ _ _ _ _ => rfl, fun _ _ _ _ _ _ _ _ => rfl, fun _ _ _ _ _ _ _ _ => rfl,
   fun _ _ _ _ _ _ _ _ => rfl, fun _ _ _ _ _ _ _ _ => rfl, rfl, rfl⟩


/-- C6: a two armed conditional always lowers to Cond; a multi way
conditional lowers to Switch exactly when the scrutinee type allows a
dense integer or tag discriminant, and to Branches otherwise, so a dense
multi way conditional is never lowered to Branches. -/
theorem claim_C6 :
    (∀ fuel defs current tail uniq inprog c p f retTy procs e procs1,
      Expr.new fuel defs current tail uniq inprog (Can.ifte c p f retTy) procs =
        some (e, procs1) →
      ∃ c1 p1 f1 rl, e = Expr.Cond c1 (Layout.Builtin Builtin.Bool) p1 f1 rl) ∧
    (∀ fuel defs current tail uniq inprog scrut scrutTy retTy branches default procs e procs1,
      Expr.new fuel defs current tail uniq inprog
        (Can.when scrut scrutTy retTy branches default) procs = some (e, procs1) →
      (denseDiscriminant scrutTy = true →
        ∃ s1 sl bs d1 rl, e = Expr.Switch s1 sl bs d1 rl) ∧
      (denseDiscriminant scrutTy = false →
        ∃ s1 bs d1 rl, e = Expr.Branches s1 bs d1 rl)) := by
  constructor
  · intro fuel defs current tail uniq inprog c p f retTy procs e procs1 h
    cases fuel with
    | zero => exact absurd h (by simp [Expr.new])
    | succ n =>
      simp only [Expr.new] at h
      split at h
      · exact absurd h (by simp)
      · split at h
        · exact absurd h (by simp)
        · split at h
          · exact absurd h (by simp)
          · split at h
            · exact absurd h (by simp)
            · injection h with h1
              injection h1 with h2 h3
              exact ⟨_, _, _, _, h2.symm⟩
  · intro fuel defs current tail uniq inprog scrut scrutTy retTy branches default procs e
      procs1 h
    cases fuel with
    | zero => exact absurd h (by simp [Expr.new])
    | succ n =>
      simp only [Expr.new] at h
      split at h
      · rename_i sl rl
        split at h
        · exact absurd h (by simp)
        · split at h
          · exact absurd h (by simp)
          · split at h
            · rename_i hdense
              constructor
              · intro _
                split at h
                · exact absurd h (by simp)
                · injection h with h1
                  injection h1 with h2 h3
                  exact ⟨_, _, _, _, _, h2.symm⟩
              · intro hfalse
                rw [hdense] at hfalse
                exact absurd hfalse (by simp)
            · rename_i hdense
              constructor
              · intro htrue
                rw [htrue] at hdense
                exact absurd rfl hdense
              · intro _
                split at h
                · exact absurd h (by simp)
                · injection h with h1
                  injection h1 with h2 h3
                  exact ⟨_, _, _, _, h2.symm⟩
      · exact absurd h (by simp)
      · exact absurd h (by simp)

/-- Witness: the claim applied to a concrete two armed conditional, a
dense multi way conditional over an integer scrutinee and a non dense one
over a string scrutinee. -/
theorem claim_C6_witness :
    (∃ c1 p1 f1 rl,
      Expr.Cond (Expr.Bool true) (Layout.Builtin Builtin.Bool) (Expr.Int 1) (Expr.Int 2)
          (Layout.Builtin Builtin.Int64) =
        Expr.Cond c1 (Layout.Builtin Builtin.Bool) p1 f1 rl) ∧
    (∃ s1 sl bs d1 rl,
      Expr.Switch (Expr.Int 0) (Layout.Builtin Builtin.Int64) [(3, Expr.Int 1)] (Expr.Int 2)
          (Layout.Builtin Builtin.Int64) =
        Expr.Switch s1 sl bs d1 rl) ∧
    (∃ s1 bs d1 rl,
      Expr.Branches (Expr.Str "a") [(Expr.Int (Int.ofNat 3), Expr.Bool true, Expr.Int 1)]
          (Expr.Int 2) (Layout.Builtin Builtin.Int64) =
        Expr.Branches s1 bs d1 rl) :=
  ⟨claim_C6.1 5 [] none false [] [] (Can.bool true) (Can.int 1) (Can.int 2) Ty.int [] _ _ rfl,
   (claim_C6.2 5 [] none false [] [] (Can.int 0) Ty.int Ty.int [(3, Can.int 1)]
      (Can.int 2) [] _ _ rfl).1 rfl,
   (claim_C6.2 5 [] none false [] [] (Can.str "a") Ty.str Ty.int [(3, Can.int 1)]
      (Can.int 2) [] _ _ rfl).2 rfl⟩

/-- C8: a call in tail position to the procedure currently being lowered
becomes a Jump; a call to a statically known symbol that is not a tail
call to the current procedure becomes a CallByName. -/
theorem claim_C8 :
    (∀ fuel defs f d args uniq inprog procs e procs1,
      f ≠ Symbol.LIST_SET → lookupDef defs f = some d →
      Expr.new fuel defs (some f) true uniq inprog (Can.call f args) procs =
        some (e, procs1) →
      e = Expr.Jump f) ∧
    (∀ fuel defs current tail f args uniq inprog procs e procs1,
      f ≠ Symbol.LIST_SET →
      (tail && (current == some f)) = false →
      Expr.new fuel defs current tail uniq inprog (Can.call f args) procs =
        some (e, procs1) →
      ∃ args1, e = Expr.CallByName f args1) := by
  constructor
  · intro fuel defs f d args uniq inprog procs e procs1 hne hlook h
    cases fuel with
    | zero => exact absurd h (by simp [Expr.new])
    | succ n =>
      simp only [Expr.new] at h
      split at h
      · rename_i hbeq
        exact absurd (beq_iff_eq.1 hbeq) hne
      · rw [hlook] at h
        simp only at h
        split at h
        · exact absurd h (by simp)
        · rename_i args1 procs2
          simp only [beq_self_eq_true, Bool.and_self, if_true] at h
          split at h
          · injection h with h1
            injection h1 with h2 h3
            exact h2.symm
          · split at h
            · exact absurd h (by simp)
            · split at h
              · exact absurd h (by simp)
              · injection h with h1
                injection h1 with h2 h3
                exact h2.symm
  · intro fuel defs current tail f args uniq inprog procs e procs1 hne htc h
    cases fuel with
    | zero => exact absurd h (by simp [Expr.new])
    | succ n =>
      simp only [Expr.new] at h
      split at h
      · rename_i hbeq
        exact absurd (beq_iff_eq.1 hbeq) hne
      · split at h
        · split at h
          · exact absurd h (by simp)
          · injection h with h1
            injection h1 with h2 h3
            exact ⟨_, h2.symm⟩
        · split at h
          · exact absurd h (by simp)
          · rename_i args1 procs2
            rw [htc] at h
            simp only [Bool.false_eq_true, if_false] at h
            split at h
            · injection h with h1
              injection h1 with h2 h3
              exact ⟨_, h2.symm⟩
            · split at h
              · exact absurd h (by simp)
              · split at h
                · exact absurd h (by simp)
                · injection h with h1
                  injection h1 with h2 h3
                  exact ⟨_, h2.symm⟩

/-- Witness: the claim applied to a concrete self tail call, which lowers
to a Jump, and the same call not in tail position, which lowers to a
CallByName. -/
theorem claim_C8_witness :
    Expr.Jump 5 = Expr.Jump 5 ∧
    (∃ args1, Expr.CallByName 5 [(Expr.Int 3, Layout.Builtin Builtin.Int64)] =
      Expr.CallByName 5 args1) :=
  ⟨claim_C8.1 10 [(5, ⟨[6], Can.int 0, Ty.int⟩)] 5 ⟨[6], Can.int 0, Ty.int⟩
      [(Can.int 3, Ty.int)] [] [] [] _ _ (by decide) rfl rfl,
   claim_C8.2 10 [(5, ⟨[6], Can.int 0, Ty.int⟩)] none false 5
      [(Can.int 3, Ty.int)] [] [] [] _ _ (by decide) rfl rfl⟩


/-- Doing nothing satisfies the procedure table invariant. -/
theorem ProcsInv_refl (inprog : List ProcKey) (procs : Procs) : ProcsInv inprog procs procs :=
  ⟨⟨[], by simp, by simp⟩, id⟩

/-- The procedure table invariant composes along a lowering chain. -/
theorem ProcsInv_trans {inprog : List ProcKey} {p q r : Procs}
    (h1 : ProcsInv inprog p q) (h2 : ProcsInv inprog q r) : ProcsInv inprog p r := by
  obtain ⟨⟨n1, he1, hm1⟩, hd1⟩ := h1
  obtain ⟨⟨n2, he2, hm2⟩, hd2⟩ := h2
  refine ⟨⟨n1 ++ n2, by rw [he2, he1, List.append_assoc], ?_⟩, fun h => hd2 (hd1 h)⟩
  intro k hk
  rw [List.map_append, List.mem_append] at hk
  rcases hk with hk | hk
  · exact hm1 k hk
  · exact hm2 k hk

/-- Keys avoiding a longer in progress list avoid the shorter one. -/
theorem ProcsInv_shrink {key : ProcKey} {inprog : List ProcKey} {p q : Procs}
    (h : ProcsInv (key :: inprog) p q) : ProcsInv inprog p q := by
  obtain ⟨⟨n1, he1, hm1⟩, hd1⟩ := h
  refine ⟨⟨n1, he1, ?_⟩, hd1⟩
  intro k hk
  have := hm1 k hk
  unfold keyMem at this ⊢
  simp only [List.any_cons, Bool.or_eq_false_iff] at this
  exact this.2

/-- Appending one fresh entry preserves the table invariant. -/
theorem ProcsInv_snoc {inprog : List ProcKey} {procs procs2 : Procs}
    {key : ProcKey} {P : Proc}
    (h : ProcsInv inprog procs procs2) (hk : keyMem inprog key = false)
    (hnm : key ∉ procs2.map Prod.fst) :
    ProcsInv inprog procs (procs2 ++ [(key, P)]) := by
  obtain ⟨⟨n1, he1, hm1⟩, hd1⟩ := h
  constructor
  · refine ⟨n1 ++ [(key, P)], by rw [he1, List.append_assoc], ?_⟩
    intro k hkk
    rw [List.map_append, List.mem_append] at hkk
    rcases hkk with hkk | hkk
    · exact hm1 k hkk
    · simp at hkk
      rw [hkk]
      exact hk
  · intro hnd
    rw [List.map_append]
    rw [List.nodup_append]
    refine ⟨hd1 hnd, by simp, ?_⟩
    intro a ha hb
    simp at hb
    rw [hb] at ha
    exact hnm ha

/-- Master induction: every lowering function only appends to the
procedure table, never touches a key currently in progress, and keeps the
table keys distinct. -/
theorem lowering_procs_inv : ∀ fuel : Nat,
    (∀ defs current tail uniq inprog can procs e procs1,
      Expr.new fuel defs current tail uniq inprog can procs = some (e, procs1) →
      ProcsInv inprog procs procs1) ∧
    (∀ defs current uniq inprog elems procs es procs1,
      lowerElems fuel defs current uniq inprog elems procs = some (es, procs1) →
      ProcsInv inprog procs procs1) ∧
    (∀ defs current uniq inprog fields procs fs procs1,
      lowerFields fuel defs current uniq inprog fields procs = some (fs, procs1) →
      ProcsInv inprog procs procs1) ∧
    (∀ defs current uniq inprog args procs as1 procs1,
      lowerCallArgs fuel defs current uniq inprog args procs = some (as1, procs1) →
      ProcsInv inprog procs procs1) ∧
    (∀ defs current tail uniq inprog branches procs bs procs1,
      lowerSwitch fuel defs current tail uniq inprog branches procs = some (bs, procs1) →
      ProcsInv inprog procs procs1) ∧
    (∀ defs current tail uniq inprog branches procs bs procs1,
      lowerTriples fuel defs current tail uniq inprog branches procs = some (bs, procs1) →
      ProcsInv inprog procs procs1) := by
  intro fuel
  induction fuel with
  | zero =>
    refine ⟨?_, ?_, ?_, ?_, ?_, ?_⟩
    · intro d1 c1 t1 u1 ip cn pr e1 p1 h
      exact absurd h (by simp [Expr.new])
    · intro d1 c1 u1 ip el pr e1 p1 h
      exact absurd h (by simp [lowerElems])
    · intro d1 c1 u1 ip fl pr f1 p1 h
      exact absurd h (by simp [lowerFields])
    · intro d1 c1 u1 ip ar pr a1 p1 h
      exact absurd h (by simp [lowerCallArgs])
    · intro d1 c1 t1 u1 ip br pr b1 p1 h
      exact absurd h (by simp [lowerSwitch])
    · intro d1 c1 t1 u1 ip br pr b1 p1 h
      exact absurd h (by simp [lowerTriples])
  | succ n ih =>
    obtain ⟨ihN, ihE, ihF, ihA, ihS, ihT⟩ := ih
    refine ⟨?_, ?_, ?_, ?_, ?_, ?_⟩
    · intro defs current tail uniq inprog can procs e procs1 h
      cases can with
      | int m =>
        simp only [Expr.new] at h
        injection h with h1
        injection h1 with h2 h3
        rw [← h3]
        exact ProcsInv_refl inprog procs
      | float m =>
        simp only [Expr.new] at h
        injection h with h1
        injection h1 with h2 h3
        rw [← h3]
        exact ProcsInv_refl inprog procs
      | str m =>
        simp only [Expr.new] at h
        injection h with h1
        injection h1 with h2 h3
        rw [← h3]
        exact ProcsInv_refl inprog procs
      | bool m =>
        simp only [Expr.new] at h
        injection h with h1
        injection h1 with h2 h3
        rw [← h3]
        exact ProcsInv_refl inprog procs
      | byte m =>
        simp only [Expr.new] at h
        injection h with h1
        injection h1 with h2 h3
        rw [← h3]
        exact ProcsInv_refl inprog procs
      | var m ty =>
        simp only [Expr.new] at h
        injection h with h1
        injection h1 with h2 h3
        rw [← h3]
        exact ProcsInv_refl inprog procs
      | runtimeError m =>
        simp only [Expr.new] at h
        injection h with h1
        injection h1 with h2 h3
        rw [← h3]
        exact ProcsInv_refl inprog procs
      | list elemTy elems =>
        simp only [Expr.new] at h
        split at h
        · exact absurd h (by simp)
        · cases hE : lowerElems n defs current uniq inprog elems procs with
          | none => rw [hE] at h; exact absurd h (by simp)
          | some p =>
            obtain ⟨es, procs2⟩ := p
            rw [hE] at h
            simp only at h
            injection h with h1
            injection h1 with h2 h3
            rw [← h3]
            exact ihE defs current uniq inprog elems procs es procs2 hE
      | letb x ty rhs body =>
        simp only [Expr.new] at h
        split at h
        · exact absurd h (by simp)
        · cases hR : Expr.new n defs current false uniq inprog rhs procs with
          | none => rw [hR] at h; exact absurd h (by simp)
          | some p =>
            obtain ⟨rhs1, procs2⟩ := p
            rw [hR] at h
            simp only at h
            cases hB : Expr.new n defs current tail
                (if binds_unique_list x rhs body then x :: uniq else uniq) inprog body procs2 with
            | none => rw [hB] at h; exact absurd h (by simp)
            | some q =>
              obtain ⟨body1, procs3⟩ := q
              rw [hB] at h
              simp only at h
              injection h with h1
              injection h1 with h2 h3
              rw [← h3]
              exact ProcsInv_trans
                (ihN defs current false uniq inprog rhs procs rhs1 procs2 hR)
                (ihN defs current tail _ inprog body procs2 body1 procs3 hB)
      | record fields =>
        simp only [Expr.new] at h
        cases hF : lowerFields n defs current uniq inprog (sortByKey fields) procs with
        | none => rw [hF] at h; exact absurd h (by simp)
        | some p =>
          obtain ⟨fs, procs2⟩ := p
          rw [hF] at h
          simp only at h
          injection h with h1
          injection h1 with h2 h3
          rw [← h3]
          exact ihF defs current uniq inprog (sortByKey fields) procs fs procs2 hF
      | ifte c p f retTy =>
        simp only [Expr.new] at h
        split at h
        · exact absurd h (by simp)
        · cases hC : Expr.new n defs current false uniq inprog c procs with
          | none => rw [hC] at h; exact absurd h (by simp)
          | some pc =>
            obtain ⟨c1, procs2⟩ := pc
            rw [hC] at h
            simp only at h
            cases hP : Expr.new n defs current tail uniq inprog p procs2 with
            | none => rw [hP] at h; exact absurd h (by simp)
            | some pp =>
              obtain ⟨p1, procs3⟩ := pp
              rw [hP] at h
              simp only at h
              cases hX : Expr.new n defs current tail uniq inprog f procs3 with
              | none => rw [hX] at h; exact absurd h (by simp)
              | some pf =>
                obtain ⟨f1, procs4⟩ := pf
                rw [hX] at h
                simp only at h
                injection h with h1
                injection h1 with h2 h3
                rw [← h3]
                exact ProcsInv_trans
                  (ihN defs current false uniq inprog c procs c1 procs2 hC)
                  (ProcsInv_trans
                    (ihN defs current tail uniq inprog p procs2 p1 procs3 hP)
                    (ihN defs current tail uniq inprog f procs3 f1 procs4 hX))
      | when scrut scrutTy retTy branches default =>
        simp only [Expr.new] at h
        split at h
        · rename_i sl rl
          cases hS : Expr.new n defs current false uniq inprog scrut procs with
          | none => rw [hS] at h; exact absurd h (by simp)
          | some ps =>
            obtain ⟨s1, procs2⟩ := ps
            rw [hS] at h
            simp only at h
            cases hD : Expr.new n defs current tail uniq inprog default procs2 with
            | none => rw [hD] at h; exact absurd h (by simp)
            | some pd =>
              obtain ⟨d1, procs3⟩ := pd
              rw [hD] at h
              simp only at h
              split at h
              · cases hW : lowerSwitch n defs current tail uniq inprog branches procs3 with
                | none => rw [hW] at h; exact absurd h (by simp)
                | some pw =>
                  obtain ⟨bs, procs4⟩ := pw
                  rw [hW] at h
                  simp only at h
                  injection h with h1
                  injection h1 with h2 h3
                  rw [← h3]
                  exact ProcsInv_trans
                    (ihN defs current false uniq inprog scrut procs s1 procs2 hS)
                    (ProcsInv_trans
                      (ihN defs current tail uniq inprog default procs2 d1 procs3 hD)
                      (ihS defs current tail uniq inprog branches procs3 bs procs4 hW))
              · cases hW : lowerTriples n defs current tail uniq inprog branches procs3 with
                | none => rw [hW] at h; exact absurd h (by simp)
                | some pw =>
                  obtain ⟨bs, procs4⟩ := pw
                  rw [hW] at h
                  simp only at h
                  injection h with h1
                  injection h1 with h2 h3
                  rw [← h3]
                  exact ProcsInv_trans
                    (ihN defs current false uniq inprog scrut procs s1 procs2 hS)
                    (ProcsInv_trans
                      (ihN defs current tail uniq inprog default procs2 d1 procs3 hD)
                      (ihT defs current tail uniq inprog branches procs3 bs procs4 hW))
        · exact absurd h (by simp)
        · exact absurd h (by simp)
      | call f args =>
        simp only [Expr.new] at h
        split at h
        · cases hA : lowerCallArgs n defs current uniq inprog args procs with
          | none => rw [hA] at h; exact absurd h (by simp)
          | some pa =>
            obtain ⟨args1, procs2⟩ := pa
            rw [hA] at h
            simp only at h
            injection h with h1
            injection h1 with h2 h3
            rw [← h3]
            exact ihA defs current uniq inprog args procs args1 procs2 hA
        · cases hL : lookupDef defs f with
          | none =>
            rw [hL] at h
            simp only at h
            cases hA : lowerCallArgs n defs current uniq inprog args procs with
            | none => rw [hA] at h; exact absurd h (by simp)
            | some pa =>
              obtain ⟨args1, procs2⟩ := pa
              rw [hA] at h
              simp only at h
              injection h with h1
              injection h1 with h2 h3
              rw [← h3]
              exact ihA defs current uniq inprog args procs args1 procs2 hA
          | some d =>
            rw [hL] at h
            simp only at h
            cases hA : lowerCallArgs n defs current uniq inprog args procs with
            | none => rw [hA] at h; exact absurd h (by simp)
            | some pa =>
              obtain ⟨args1, procs2⟩ := pa
              rw [hA] at h
              simp only at h
              have hInvA := ihA defs current uniq inprog args procs args1 procs2 hA
              split at h
              · injection h with h1
                injection h1 with h2 h3
                rw [← h3]
                exact hInvA
              · rename_i hguard
                split at h
                · exact absurd h (by simp)
                · rename_i retL
                  cases hB : Expr.new n defs (some f) true []
                      ((f, args1.map Prod.snd) :: inprog) d.body procs2 with
                  | none => rw [hB] at h; exact absurd h (by simp)
                  | some pb =>
                    obtain ⟨body1, procs3⟩ := pb
                    rw [hB] at h
                    simp only at h
                    injection h with h1
                    injection h1 with h2 h3
                    rw [← h3]
                    have hInvB := ihN defs (some f) true []
                      ((f, args1.map Prod.snd) :: inprog) d.body procs2 body1 procs3 hB
                    have hInv2 : ProcsInv inprog procs procs3 :=
                      ProcsInv_trans hInvA (ProcsInv_shrink hInvB)
                    have hguard2 : (procsContains procs2 (f, args1.map Prod.snd) ||
                        keyMem inprog (f, args1.map Prod.snd)) = false :=
                      Bool.eq_false_iff.mpr hguard
                    rw [Bool.or_eq_false_iff] at hguard2
                    apply ProcsInv_snoc hInv2 hguard2.2
                    -- key ∉ procs3.map fst
                    obtain ⟨⟨n2, he2, hm2⟩, hd2⟩ := hInvB
                    rw [he2, List.map_append]
                    intro hmem
                    rw [List.mem_append] at hmem
                    rcases hmem with hmem | hmem
                    · exact absurd hmem (not_mem_of_procsContains_eq_false hguard2.1)
                    · have := hm2 _ hmem
                      unfold keyMem at this
                      simp only [List.any_cons, Bool.or_eq_false_iff] at this
                      have hne := this.1
                      rw [keyBeq_refl] at hne
                      exact absurd hne (by simp)
    · intro defs current uniq inprog elems procs es procs1 h
      cases elems with
      | nil =>
        simp only [lowerElems] at h
        injection h with h1
        injection h1 with h2 h3
        rw [← h3]
        exact ProcsInv_refl inprog procs
      | cons c rest =>
        simp only [lowerElems] at h
        cases hC : Expr.new n defs current false uniq inprog c procs with
        | none => rw [hC] at h; exact absurd h (by simp)
        | some pc =>
          obtain ⟨e1, procs2⟩ := pc
          rw [hC] at h
          simp only at h
          cases hR : lowerElems n defs current uniq inprog rest procs2 with
          | none => rw [hR] at h; exact absurd h (by simp)
          | some pr =>
            obtain ⟨es2, procs3⟩ := pr
            rw [hR] at h
            simp only at h
            injection h with h1
            injection h1 with h2 h3
            rw [← h3]
            exact ProcsInv_trans
              (ihN defs current false uniq inprog c procs e1 procs2 hC)
              (ihE defs current uniq inprog rest procs2 es2 procs3 hR)
    · intro defs current uniq inprog fields procs fs procs1 h
      cases fields with
      | nil =>
        simp only [lowerFields] at h
        injection h with h1
        injection h1 with h2 h3
        rw [← h3]
        exact ProcsInv_refl inprog procs
      | cons p rest =>
        obtain ⟨name, ty, c⟩ := p
        simp only [lowerFields] at h
        split at h
        · exact absurd h (by simp)
        · cases hC : Expr.new n defs current false uniq inprog c procs with
          | none => rw [hC] at h; exact absurd h (by simp)
          | some pc =>
            obtain ⟨e1, procs2⟩ := pc
            rw [hC] at h
            simp only at h
            cases hR : lowerFields n defs current uniq inprog rest procs2 with
            | none => rw [hR] at h; exact absurd h (by simp)
            | some pr =>
              obtain ⟨fs2, procs3⟩ := pr
              rw [hR] at h
              simp only at h
              injection h with h1
              injection h1 with h2 h3
              rw [← h3]
              exact ProcsInv_trans
                (ihN defs current false uniq inprog c procs e1 procs2 hC)
                (ihF defs current uniq inprog rest procs2 fs2 procs3 hR)
    · intro defs current uniq inprog args procs as1 procs1 h
      cases args with
      | nil =>
        simp only [lowerCallArgs] at h
        injection h with h1
        injection h1 with h2 h3
        rw [← h3]
        exact ProcsInv_refl inprog procs
      | cons p rest =>
        obtain ⟨c, ty⟩ := p
        simp only [lowerCallArgs] at h
        split at h
        · exact absurd h (by simp)
        · cases hC : Expr.new n defs current false uniq inprog c procs with
          | none => rw [hC] at h; exact absurd h (by simp)
          | some pc =>
            obtain ⟨e1, procs2⟩ := pc
            rw [hC] at h
            simp only at h
            cases hR : lowerCallArgs n defs current uniq inprog rest procs2 with
            | none => rw [hR] at h; exact absurd h (by simp)
            | some pr =>
              obtain ⟨as2, procs3⟩ := pr
              rw [hR] at h
              simp only at h
              injection h with h1
              injection h1 with h2 h3
              rw [← h3]
              exact ProcsInv_trans
                (ihN defs current false uniq inprog c procs e1 procs2 hC)
                (ihA defs current uniq inprog rest procs2 as2 procs3 hR)
    · intro defs current tail uniq inprog branches procs bs procs1 h
      cases branches with
      | nil =>
        simp only [lowerSwitch] at h
        injection h with h1
        injection h1 with h2 h3
        rw [← h3]
        exact ProcsInv_refl inprog procs
      | cons p rest =>
        obtain ⟨tag, body⟩ := p
        simp only [lowerSwitch] at h
        cases hC : Expr.new n defs current tail uniq inprog body procs with
        | none => rw [hC] at h; exact absurd h (by simp)
        | some pc =>
          obtain ⟨b1, procs2⟩ := pc
          rw [hC] at h
          simp only at h
          cases hR : lowerSwitch n defs current tail uniq inprog rest procs2 with
          | none => rw [hR] at h; exact absurd h (by simp)
          | some pr =>
            obtain ⟨bs2, procs3⟩ := pr
            rw [hR] at h
            simp only at h
            injection h with h1
            injection h1 with h2 h3
            rw [← h3]
            exact ProcsInv_trans
              (ihN defs current tail uniq inprog body procs b1 procs2 hC)
              (ihS defs current tail uniq inprog rest procs2 bs2 procs3 hR)
    · intro defs current tail uniq inprog branches procs bs procs1 h
      cases branches with
      | nil =>
        simp only [lowerTriples] at h
        injection h with h1
        injection h1 with h2 h3
        rw [← h3]
        exact ProcsInv_refl inprog procs
      | cons p rest =>
        obtain ⟨tag, body⟩ := p
        simp only [lowerTriples] at h
        cases hC : Expr.new n defs current tail uniq inprog body procs with
        | none => rw [hC] at h; exact absurd h (by simp)
        | some pc =>
          obtain ⟨b1, procs2⟩ := pc
          rw [hC] at h
          simp only at h
          cases hR : lowerTriples n defs current tail uniq inprog rest procs2 with
          | none => rw [hR] at h; exact absurd h (by simp)
          | some pr =>
            obtain ⟨bs2, procs3⟩ := pr
            rw [hR] at h
            simp only at h
            injection h with h1
            injection h1 with h2 h3
            rw [← h3]
            exact ProcsInv_trans
              (ihN defs current tail uniq inprog body procs b1 procs2 hC)
              (ihT defs current tail uniq inprog rest procs2 bs2 procs3 hR)

/-- Error node count over record fields as a sum, for permutation
reasoning. -/
theorem countErrorNodesFields_eq_sum : ∀ l : List (String × Ty × Can),
    countErrorNodesFields l = (l.map (fun p => countErrorNodes p.2.2)).sum := by
  intro l
  induction l with
  | nil => rfl
  | cons p rest ih =>
    obtain ⟨name, ty, c⟩ := p
    simp [countErrorNodesFields, ih]

/-- Sorting record fields by name does not change the error node count. -/
theorem countErrorNodesFields_sortByKey (l : List (String × (Ty × Can))) :
    countErrorNodesFields (sortByKey l) = countErrorNodesFields l := by
  rw [countErrorNodesFields_eq_sum, countErrorNodesFields_eq_sum]
  exact List.Perm.sum_eq ((List.perm_insertionSort _ l).map _)

/-- Master induction: lowering with no current procedure preserves the
number of deferred error nodes, turning each into exactly one
RuntimeError in the output tree. -/
theorem lowering_count : ∀ fuel : Nat,
    (∀ defs tail uniq inprog can procs e procs1,
      Expr.new fuel defs none tail uniq inprog can procs = some (e, procs1) →
      countRuntimeErrors e = countErrorNodes can) ∧
    (∀ defs uniq inprog elems procs es procs1,
      lowerElems fuel defs none uniq inprog elems procs = some (es, procs1) →
      countRuntimeErrorsList es = countErrorNodesList elems) ∧
    (∀ defs uniq inprog fields procs fs procs1,
      lowerFields fuel defs none uniq inprog fields procs = some (fs, procs1) →
      countRuntimeErrorsArgs fs = countErrorNodesFields fields) ∧
    (∀ defs uniq inprog args procs as1 procs1,
      lowerCallArgs fuel defs none uniq inprog args procs = some (as1, procs1) →
      countRuntimeErrorsArgs as1 = countErrorNodesArgs args) ∧
    (∀ defs tail uniq inprog branches procs bs procs1,
      lowerSwitch fuel defs none tail uniq inprog branches procs = some (bs, procs1) →
      countRuntimeErrorsSwitch bs = countErrorNodesBranches branches) ∧
    (∀ defs tail uniq inprog branches procs bs procs1,
      lowerTriples fuel defs none tail uniq inprog branches procs = some (bs, procs1) →
      countRuntimeErrorsTriples bs = countErrorNodesBranches branches) := by
  intro fuel
  induction fuel with
  | zero =>
    refine ⟨?_, ?_, ?_, ?_, ?_, ?_⟩
    · intro d1 t1 u1 ip cn pr e1 p1 h
      exact absurd h (by simp [Expr.new])
    · intro d1 u1 ip el pr e1 p1 h
      exact absurd h (by simp [lowerElems])
    · intro d1 u1 ip fl pr f1 p1 h
      exact absurd h (by simp [lowerFields])
    · intro d1 u1 ip ar pr a1 p1 h
      exact absurd h (by simp [lowerCallArgs])
    · intro d1 t1 u1 ip br pr b1 p1 h
      exact absurd h (by simp [lowerSwitch])
    · intro d1 t1 u1 ip br pr b1 p1 h
      exact absurd h (by simp [lowerTriples])
  | succ n ih =>
    obtain ⟨ihN, ihE, ihF, ihA, ihS, ihT⟩ := ih
    refine ⟨?_, ?_, ?_, ?_, ?_, ?_⟩
    · intro defs tail uniq inprog can procs e procs1 h
      cases can with
      | int m =>
        simp only [Expr.new] at h
        injection h with h1
        injection h1 with h2 h3
        rw [← h2]
        rfl
      | float m =>
        simp only [Expr.new] at h
        injection h with h1
        injection h1 with h2 h3
        rw [← h2]
        rfl
      | str m =>
        simp only [Expr.new] at h
        injection h with h1
        injection h1 with h2 h3
        rw [← h2]
        rfl
      | bool m =>
        simp only [Expr.new] at h
        injection h with h1
        injection h1 with h2 h3
        rw [← h2]
        rfl
      | byte m =>
        simp only [Expr.new] at h
        injection h with h1
        injection h1 with h2 h3
        rw [← h2]
        rfl
      | var m ty =>
        simp only [Expr.new] at h
        injection h with h1
        injection h1 with h2 h3
        rw [← h2]
        rfl
      | runtimeError m =>
        simp only [Expr.new] at h
        injection h with h1
        injection h1 with h2 h3
        rw [← h2]
        rfl
      | list elemTy elems =>
        simp only [Expr.new] at h
        split at h
        · exact absurd h (by simp)
        · cases hE : lowerElems n defs none uniq inprog elems procs with
          | none => rw [hE] at h; exact absurd h (by simp)
          | some p =>
            obtain ⟨es, procs2⟩ := p
            rw [hE] at h
            simp only at h
            injection h with h1
            injection h1 with h2 h3
            rw [← h2]
            show countRuntimeErrorsList es = countErrorNodesList elems
            exact ihE defs uniq inprog elems procs es procs2 hE
      | letb x ty rhs body =>
        simp only [Expr.new] at h
        split at h
        · exact absurd h (by simp)
        · cases hR : Expr.new n defs none false uniq inprog rhs procs with
          | none => rw [hR] at h; exact absurd h (by simp)
          | some p =>
            obtain ⟨rhs1, procs2⟩ := p
            rw [hR] at h
            simp only at h
            cases hB : Expr.new n defs none tail
                (if binds_unique_list x rhs body then x :: uniq else uniq) inprog body procs2 with
            | none => rw [hB] at h; exact absurd h (by simp)
            | some q =>
              obtain ⟨body1, procs3⟩ := q
              rw [hB] at h
              simp only at h
              injection h with h1
              injection h1 with h2 h3
              rw [← h2]
              show countRuntimeErrors rhs1 + 0 + countRuntimeErrors body1 =
                countErrorNodes rhs + countErrorNodes body
              rw [ihN defs false uniq inprog rhs procs rhs1 procs2 hR,
                ihN defs tail _ inprog body procs2 body1 procs3 hB]
              omega
      | record fields =>
        simp only [Expr.new] at h
        cases hF : lowerFields n defs none uniq inprog (sortByKey fields) procs with
        | none => rw [hF] at h; exact absurd h (by simp)
        | some p =>
          obtain ⟨fs, procs2⟩ := p
          rw [hF] at h
          simp only at h
          injection h with h1
          injection h1 with h2 h3
          rw [← h2]
          show countRuntimeErrorsArgs fs = countErrorNodesFields fields
          rw [ihF defs uniq inprog (sortByKey fields) procs fs procs2 hF]
          exact countErrorNodesFields_sortByKey fields
      | ifte c p f retTy =>
        simp only [Expr.new] at h
        split at h
        · exact absurd h (by simp)
        · cases hC : Expr.new n defs none false uniq inprog c procs with
          | none => rw [hC] at h; exact absurd h (by simp)
          | some pc =>
            obtain ⟨c1, procs2⟩ := pc
            rw [hC] at h
            simp only at h
            cases hP : Expr.new n defs none tail uniq inprog p procs2 with
            | none => rw [hP] at h; exact absurd h (by simp)
            | some pp =>
              obtain ⟨p1, procs3⟩ := pp
              rw [hP] at h
              simp only at h
              cases hX : Expr.new n defs none tail uniq inprog f procs3 with
              | none => rw [hX] at h; exact absurd h (by simp)
              | some pf =>
                obtain ⟨f1, procs4⟩ := pf
                rw [hX] at h
                simp only at h
                injection h with h1
                injection h1 with h2 h3
                rw [← h2]
                show countRuntimeErrors c1 + countRuntimeErrors p1 + countRuntimeErrors f1 =
                  countErrorNodes c + countErrorNodes p + countErrorNodes f
                rw [ihN defs false uniq inprog c procs c1 procs2 hC,
                  ihN defs tail uniq inprog p procs2 p1 procs3 hP,
                  ihN defs tail uniq inprog f procs3 f1 procs4 hX]
      | when scrut scrutTy retTy branches default =>
        simp only [Expr.new] at h
        split at h
        · rename_i sl rl
          cases hS : Expr.new n defs none false uniq inprog scrut procs with
          | none => rw [hS] at h; exact absurd h (by simp)
          | some ps =>
            obtain ⟨s1, procs2⟩ := ps
            rw [hS] at h
            simp only at h
            cases hD : Expr.new n defs none tail uniq inprog default procs2 with
            | none => rw [hD] at h; exact absurd h (by simp)
            | some pd =>
              obtain ⟨d1, procs3⟩ := pd
              rw [hD] at h
              simp only at h
              split at h
              · cases hW : lowerSwitch n defs none tail uniq inprog branches procs3 with
                | none => rw [hW] at h; exact absurd h (by simp)
                | some pw =>
                  obtain ⟨bs, procs4⟩ := pw
                  rw [hW] at h
                  simp only at h
                  injection h with h1
                  injection h1 with h2 h3
                  rw [← h2]
                  show countRuntimeErrors s1 + countRuntimeErrors d1 +
                      countRuntimeErrorsSwitch bs =
                    countErrorNodes scrut + countErrorNodes default +
                      countErrorNodesBranches branches
                  rw [ihN defs false uniq inprog scrut procs s1 procs2 hS,
                    ihN defs tail uniq inprog default procs2 d1 procs3 hD,
                    ihS defs tail uniq inprog branches procs3 bs procs4 hW]
              · cases hW : lowerTriples n defs none tail uniq inprog branches procs3 with
                | none => rw [hW] at h; exact absurd h (by simp)
                | some pw =>
                  obtain ⟨bs, procs4⟩ := pw
                  rw [hW] at h
                  simp only at h
                  injection h with h1
                  injection h1 with h2 h3
                  rw [← h2]
                  show countRuntimeErrors s1 + countRuntimeErrors d1 +
                      countRuntimeErrorsTriples bs =
                    countErrorNodes scrut + countErrorNodes default +
                      countErrorNodesBranches branches
                  rw [ihN defs false uniq inprog scrut procs s1 procs2 hS,
                    ihN defs tail uniq inprog default procs2 d1 procs3 hD,
                    ihT defs tail uniq inprog branches procs3 bs procs4 hW]
        · exact absurd h (by simp)
        · exact absurd h (by simp)
      | call f args =>
        simp only [Expr.new] at h
        split at h
        · cases hA : lowerCallArgs n defs none uniq inprog args procs with
          | none => rw [hA] at h; exact absurd h (by simp)
          | some pa =>
            obtain ⟨args1, procs2⟩ := pa
            rw [hA] at h
            simp only at h
            injection h with h1
            injection h1 with h2 h3
            rw [← h2]
            show countRuntimeErrorsArgs args1 = countErrorNodesArgs args
            exact ihA defs uniq inprog args procs args1 procs2 hA
        · cases hL : lookupDef defs f with
          | none =>
            rw [hL] at h
            simp only at h
            cases hA : lowerCallArgs n defs none uniq inprog args procs with
            | none => rw [hA] at h; exact absurd h (by simp)
            | some pa =>
              obtain ⟨args1, procs2⟩ := pa
              rw [hA] at h
              simp only at h
              injection h with h1
              injection h1 with h2 h3
              rw [← h2]
              show countRuntimeErrorsArgs args1 = countErrorNodesArgs args
              exact ihA defs uniq inprog args procs args1 procs2 hA
          | some d =>
            rw [hL] at h
            simp only at h
            cases hA : lowerCallArgs n defs none uniq inprog args procs with
            | none => rw [hA] at h; exact absurd h (by simp)
            | some pa =>
              obtain ⟨args1, procs2⟩ := pa
              rw [hA] at h
              simp only at h
              have hres : (if tail && ((none : Option Symbol) == some f) then Expr.Jump f
                  else Expr.CallByName f args1) = Expr.CallByName f args1 := by
                simp
              rw [hres] at h
              split at h
              · injection h with h1
                injection h1 with h2 h3
                rw [← h2]
                show countRuntimeErrorsArgs args1 = countErrorNodesArgs args
                exact ihA defs uniq inprog args procs args1 procs2 hA
              · split at h
                · exact absurd h (by simp)
                · cases hB : Expr.new n defs (some f) true []
                      ((f, args1.map Prod.snd) :: inprog) d.body procs2 with
                  | none => rw [hB] at h; exact absurd h (by simp)
                  | some pb =>
                    obtain ⟨body1, procs3⟩ := pb
                    rw [hB] at h
                    simp only at h
                    injection h with h1
                    injection h1 with h2 h3
                    rw [← h2]
                    show countRuntimeErrorsArgs args1 = countErrorNodesArgs args
                    exact ihA defs uniq inprog args procs args1 procs2 hA
    · intro defs uniq inprog elems procs es procs1 h
      cases elems with
      | nil =>
        simp only [lowerElems] at h
        injection h with h1
        injection h1 with h2 h3
        rw [← h2]
        rfl
      | cons c rest =>
        simp only [lowerElems] at h
        cases hC : Expr.new n defs none false uniq inprog c procs with
        | none => rw [hC] at h; exact absurd h (by simp)
        | some pc =>
          obtain ⟨e1, procs2⟩ := pc
          rw [hC] at h
          simp only at h
          cases hR : lowerElems n defs none uniq inprog rest procs2 with
          | none => rw [hR] at h; exact absurd h (by simp)
          | some pr =>
            obtain ⟨es2, procs3⟩ := pr
            rw [hR] at h
            simp only at h
            injection h with h1
            injection h1 with h2 h3
            rw [← h2]
            show countRuntimeErrors e1 + countRuntimeErrorsList es2 =
              countErrorNodes c + countErrorNodesList rest
            rw [ihN defs false uniq inprog c procs e1 procs2 hC,
              ihE defs uniq inprog rest procs2 es2 procs3 hR]
    · intro defs uniq inprog fields procs fs procs1 h
      cases fields with
      | nil =>
        simp only [lowerFields] at h
        injection h with h1
        injection h1 with h2 h3
        rw [← h2]
        rfl
      | cons p rest =>
        obtain ⟨name, ty, c⟩ := p
        simp only [lowerFields] at h
        split at h
        · exact absurd h (by simp)
        · cases hC : Expr.new n defs none false uniq inprog c procs with
          | none => rw [hC] at h; exact absurd h (by simp)
          | some pc =>
            obtain ⟨e1, procs2⟩ := pc
            rw [hC] at h
            simp only at h
            cases hR : lowerFields n defs none uniq inprog rest procs2 with
            | none => rw [hR] at h; exact absurd h (by simp)
            | some pr =>
              obtain ⟨fs2, procs3⟩ := pr
              rw [hR] at h
              simp only at h
              injection h with h1
              injection h1 with h2 h3
              rw [← h2]
              show countRuntimeErrors e1 + countRuntimeErrorsArgs fs2 =
                countErrorNodes c + countErrorNodesFields rest
              rw [ihN defs false uniq inprog c procs e1 procs2 hC,
                ihF defs uniq inprog rest procs2 fs2 procs3 hR]
    · intro defs uniq inprog args procs as1 procs1 h
      cases args with
      | nil =>
        simp only [lowerCallArgs] at h
        injection h with h1
        injection h1 with h2 h3
        rw [← h2]
        rfl
      | cons p rest =>
        obtain ⟨c, ty⟩ := p
        simp only [lowerCallArgs] at h
        split at h
        · exact absurd h (by simp)
        · cases hC : Expr.new n defs none false uniq inprog c procs with
          | none => rw [hC] at h; exact absurd h (by simp)
          | some pc =>
            obtain ⟨e1, procs2⟩ := pc
            rw [hC] at h
            simp only at h
            cases hR : lowerCallArgs n defs none uniq inprog rest procs2 with
            | none => rw [hR] at h; exact absurd h (by simp)
            | some pr =>
              obtain ⟨as2, procs3⟩ := pr
              rw [hR] at h
              simp only at h
              injection h with h1
              injection h1 with h2 h3
              rw [← h2]
              show countRuntimeErrors e1 + countRuntimeErrorsArgs as2 =
                countErrorNodes c + countErrorNodesArgs rest
              rw [ihN defs false uniq inprog c procs e1 procs2 hC,
                ihA defs uniq inprog rest procs2 as2 procs3 hR]
    · intro defs tail uniq inprog branches procs bs procs1 h
      cases branches with
      | nil =>
        simp only [lowerSwitch] at h
        injection h with h1
        injection h1 with h2 h3
        rw [← h2]
        rfl
      | cons p rest =>
        obtain ⟨tag, body⟩ := p
        simp only [lowerSwitch] at h
        cases hC : Expr.new n defs none tail uniq inprog body procs with
        | none => rw [hC] at h; exact absurd h (by simp)
        | some pc =>
          obtain ⟨b1, procs2⟩ := pc
          rw [hC] at h
          simp only at h
          cases hR : lowerSwitch n defs none tail uniq inprog rest procs2 with
          | none => rw [hR] at h; exact absurd h (by simp)
          | some pr =>
            obtain ⟨bs2, procs3⟩ := pr
            rw [hR] at h
            simp only at h
            injection h with h1
            injection h1 with h2 h3
            rw [← h2]
            show countRuntimeErrors b1 + countRuntimeErrorsSwitch bs2 =
              countErrorNodes body + countErrorNodesBranches rest
            rw [ihN defs tail uniq inprog body procs b1 procs2 hC,
              ihS defs tail uniq inprog rest procs2 bs2 procs3 hR]
    · intro defs tail uniq inprog branches procs bs procs1 h
      cases branches with
      | nil =>
        simp only [lowerTriples] at h
        injection h with h1
        injection h1 with h2 h3
        rw [← h2]
        rfl
      | cons p rest =>
        obtain ⟨tag, body⟩ := p
        simp only [lowerTriples] at h
        cases hC : Expr.new n defs none tail uniq inprog body procs with
        | none => rw [hC] at h; exact absurd h (by simp)
        | some pc =>
          obtain ⟨b1, procs2⟩ := pc
          rw [hC] at h
          simp only at h
          cases hR : lowerTriples n defs none tail uniq inprog rest procs2 with
          | none => rw [hR] at h; exact absurd h (by simp)
          | some pr =>
            obtain ⟨bs2, procs3⟩ := pr
            rw [hR] at h
            simp only at h
            injection h with h1
            injection h1 with h2 h3
            rw [← h2]
            show countRuntimeErrors (Expr.Int (Int.ofNat tag)) +
                countRuntimeErrors (Expr.Bool true) + countRuntimeErrors b1 +
                countRuntimeErrorsTriples bs2 =
              countErrorNodes body + countErrorNodesBranches rest
            rw [ihN defs tail uniq inprog body procs b1 procs2 hC,
              ihT defs tail uniq inprog rest procs2 bs2 procs3 hR]
            show 0 + 0 + countErrorNodes body + countErrorNodesBranches rest = _
            omega

/-- C4: the procedure table is append only during one lowering pass and
holds at most one entry per specialization key; lowering two call sites to
the same generic definition with identical concrete argument layouts
populates exactly one entry for that key, which both lowered call sites
reference by symbol. -/
theorem claim_C4 :
    (∀ fuel defs current tail uniq inprog can procs e procs1,
      Expr.new fuel defs current tail uniq inprog can procs = some (e, procs1) →
      (∃ new, procs1 = procs ++ new) ∧
      ((procs.map Prod.fst).Nodup → (procs1.map Prod.fst).Nodup)) ∧
    Expr.new 10 [(5, demoDef 6)] none false [] [] (twoCallProgram 5 1 2) [] =
      some (Expr.Struct
        [(Expr.CallByName 5 [(Expr.Int 1, Layout.Builtin Builtin.Int64)],
          Layout.Builtin Builtin.Int64),
         (Expr.CallByName 5 [(Expr.Int 2, Layout.Builtin Builtin.Int64)],
          Layout.Builtin Builtin.Int64)],
        [((5, [Layout.Builtin Builtin.Int64]),
          ⟨[(6, Layout.Builtin Builtin.Int64)], Expr.Int 0, Layout.Builtin Builtin.Int64⟩)]) := by
  constructor
  · intro fuel defs current tail uniq inprog can procs e procs1 h
    obtain ⟨⟨nw, he, _⟩, hd⟩ :=
      (lowering_procs_inv fuel).1 defs current tail uniq inprog can procs e procs1 h
    exact ⟨⟨nw, he⟩, hd⟩
  · rfl

/-- Witness: the invariant applied to the two call site program. -/
theorem claim_C4_witness :
    (∃ new, ([((5, [Layout.Builtin Builtin.Int64]),
        (⟨[(6, Layout.Builtin Builtin.Int64)], Expr.Int 0,
          Layout.Builtin Builtin.Int64⟩ : Proc))] : Procs) = [] ++ new) ∧
    ((([] : Procs).map Prod.fst).Nodup →
      (([((5, [Layout.Builtin Builtin.Int64]),
          (⟨[(6, Layout.Builtin Builtin.Int64)], Expr.Int 0,
            Layout.Builtin Builtin.Int64⟩ : Proc))] : Procs).map Prod.fst).Nodup) :=
  claim_C4.1 10 [(5, demoDef 6)] none false [] [] (twoCallProgram 5 1 2) [] _ _ rfl

/-- Lowering a list of integer literals with one deferred error among
them succeeds, lowering the siblings normally and placing the single
RuntimeError at the erroring position. -/
theorem lowerElems_int_err :
    ∀ (pre post : List Int) (msg : String) (fuel : Nat) (defs : Defs)
      (current : Option Symbol) (uniq : List Symbol) (inprog : List ProcKey) (procs : Procs),
      pre.length + post.length + 1 < fuel →
      lowerElems fuel defs current uniq inprog
        (pre.map Can.int ++ Can.runtimeError msg :: post.map Can.int) procs =
      some (pre.map Expr.Int ++ Expr.RuntimeError msg :: post.map Expr.Int, procs) := by
  intro pre
  induction pre with
  | nil =>
    intro post msg fuel defs current uniq inprog procs h
    simp only [List.length_nil, List.map_nil, List.nil_append] at h ⊢
    obtain ⟨g, rfl⟩ : ∃ k, fuel = k + 1 := ⟨fuel - 1, by omega⟩
    obtain ⟨g2, rfl⟩ : ∃ k, g = k + 1 := ⟨g - 1, by omega⟩
    simp only [lowerElems, Expr.new]
    rw [lowerElems_int post (g2 + 1) defs current uniq inprog procs (by omega)]
  | cons c rest ih =>
    intro post msg fuel defs current uniq inprog procs h
    simp only [List.length_cons] at h
    obtain ⟨g, rfl⟩ : ∃ k, fuel = k + 1 := ⟨fuel - 1, by omega⟩
    obtain ⟨g2, rfl⟩ : ∃ k, g = k + 1 := ⟨g - 1, by omega⟩
    simp only [List.map_cons, List.cons_append, List.append_eq, lowerElems, Expr.new]
    rw [ih post msg (g2 + 1) defs current uniq inprog procs (by omega)]

/-- C7: error containment.  Lowering a unit preserves the number of
deferred error nodes, each becoming one RuntimeError in the output; a
deferred error node itself always lowers successfully; and a unit with
valid siblings around one error node lowers completely, with the single
RuntimeError sitting exactly at the erroring position. -/
theorem claim_C7 :
    (∀ fuel defs tail uniq inprog can procs e procs1,
      Expr.new fuel defs none tail uniq inprog can procs = some (e, procs1) →
      countRuntimeErrors e = countErrorNodes can) ∧
    (∀ fuel defs current tail uniq inprog procs (msg : String),
      Expr.new (fuel+1) defs current tail uniq inprog (Can.runtimeError msg) procs =
        some (Expr.RuntimeError msg, procs)) ∧
    (∀ (pre post : List Int) (msg : String) (uniq : List Symbol) (fuel : Nat),
      pre.length + post.length + 2 < fuel →
      Expr.new fuel [] none false uniq []
        (Can.list Ty.int (pre.map Can.int ++ Can.runtimeError msg :: post.map Can.int)) [] =
      some (Expr.Array (Layout.Builtin Builtin.Int64)
        (pre.map Expr.Int ++ Expr.RuntimeError msg :: post.map Expr.Int), [])) := by
  refine ⟨?_, ?_, ?_⟩
  · intro fuel defs tail uniq inprog can procs e procs1 h
    exact (lowering_count fuel).1 defs tail uniq inprog can procs e procs1 h
  · intro fuel defs current tail uniq inprog procs msg
    rfl
  · intro pre post msg uniq fuel h
    obtain ⟨f1, rfl⟩ : ∃ k, fuel = k + 1 := ⟨fuel - 1, by omega⟩
    simp only [Expr.new, layout_of]
    rw [lowerElems_int_err pre post msg f1 [] none uniq [] [] (by omega)]

/-- Witness: the claim at a concrete three element list whose middle
element is a deferred error. -/
theorem claim_C7_witness :
    countRuntimeErrors (Expr.Array (Layout.Builtin Builtin.Int64)
        [Expr.Int 1, Expr.RuntimeError "e", Expr.Int 2]) =
      countErrorNodes (Can.list Ty.int [Can.int 1, Can.runtimeError "e", Can.int 2]) ∧
    Expr.new 1 [] none false [] [] (Can.runtimeError "e") [] =
      some (Expr.RuntimeError "e", []) ∧
    Expr.new 10 [] none false [] []
        (Can.list Ty.int [Can.int 1, Can.runtimeError "e", Can.int 2]) [] =
      some (Expr.Array (Layout.Builtin Builtin.Int64)
        [Expr.Int 1, Expr.RuntimeError "e", Expr.Int 2], []) :=
  ⟨claim_C7.1 10 [] false [] [] (Can.list Ty.int [Can.int 1, Can.runtimeError "e", Can.int 2])
      [] (Expr.Array (Layout.Builtin Builtin.Int64)
        [Expr.Int 1, Expr.RuntimeError "e", Expr.Int 2]) [] rfl,
   claim_C7.2.1 0 [] none false [] [] [] "e",
   claim_C7.2.2 [1] [2] "e" [] 10 (by decide)⟩


/-- C10: EdModule::new succeeds on every empty code string with an AST
root of Expr2::Blank added to the pool, without invoking the parser: the
outcome does not depend on the parser supplied.  On every nonempty code
string the outcome follows str_to_expr2 exactly: a parser success adds
the parsed expression to the pool as the AST root, a parser failure is
returned as a ParseError wrapping the parser error, and no other outcome
is possible. -/
theorem claim_C10 :
    (∀ (p1 p2 : String → Except String (Expr2 × Unit)) (env : Env),
      EdModule.new p1 "" env = EdModule.new p2 "" env) ∧
    (∀ (parse : String → Except String (Expr2 × Unit)) (env : Env),
      EdModule.new parse "" env =
        Except.ok ⟨⟨env.pool ++ [Expr2.Blank]⟩, env.pool.length⟩) ∧
    (∀ (parse : String → Except String (Expr2 × Unit)) (s : String) (env : Env),
      s ≠ "" →
      (∀ e2 out, parse s = Except.ok (e2, out) →
        EdModule.new parse s env =
          Except.ok ⟨⟨env.pool ++ [e2]⟩, env.pool.length⟩) ∧
      (∀ err, parse s = Except.error err →
        EdModule.new parse s env = Except.error (EdError.ParseError err))) := by
  refine ⟨fun p1 p2 env => rfl, fun parse env => rfl, ?_⟩
  intro parse s env hs
  have hemp : s.isEmpty = false := by
    rcases he : s.isEmpty with _ | _
    · rfl
    · exact absurd ((String.isEmpty_iff s).1 he) hs
  constructor
  · intro e2 out hp
    unfold EdModule.new
    rw [hemp, hp]
    rfl
  · intro err hp
    unfold EdModule.new
    rw [hemp, hp]
    rfl

/-- Witness: the claim applied to a succeeding and a failing concrete
parser on a one character module. -/
theorem claim_C10_witness :
    EdModule.new (fun _ => Except.ok (Expr2.Node 3, ())) "x" ⟨[]⟩ =
      Except.ok ⟨⟨[Expr2.Node 3]⟩, 0⟩ ∧
    EdModule.new (fun _ => Except.error "boom") "x" ⟨[]⟩ =
      Except.error (EdError.ParseError "boom") :=
  ⟨(claim_C10.2.2 (fun _ => Except.ok (Expr2.Node 3, ())) "x" ⟨[]⟩
      (by decide)).1 (Expr2.Node 3) () rfl,
   (claim_C10.2.2 (fun _ => Except.error "boom") "x" ⟨[]⟩
      (by decide)).2 "boom" rfl⟩

end Roc
